import Mathlib

/-!
A shallow embedding of the merkle Merkle-tree engine (ulib/merkle tree.cpp):
tree geometry (`NextLength`, `NextAligned`, `GetTreeLength`), the streaming
builder (`CreateInit` / `CreateUpdate` / `CreateFinal` / `Create`) and the
range verifier (`Verify` / `VerifyLevel` / `VerifyRoot`).

The external 32-byte digest primitive (SHA-256 behind `Digest::Init/Update/
Final`) is out of scope for the repository and is abstracted by a function
`H : List Nat → List Nat` from absorbed byte streams to digest values; the
incremental digest state is modelled as the list of absorbed bytes.

While loops and the `next_` recursion are modelled with an explicit fuel or
depth index using structural recursion; a fuel of `len` (resp. a depth equal
to the chain length) always suffices, which is proved by the fuel/depth
irrelevance lemmas below.  Machine integers are modelled as `Nat`; the
separately defined `roundup64`/`NextAligned64` capture the 64-bit wraparound
of `mxtl::roundup` where a claim is about overflow.
-/

namespace Merkle

/-- mx_status_t values returned by tree.cpp. -/
inductive Status where
  | noError
  | errBadState
  | errOutOfRange
  | errInvalidArgs
  | errBufferTooSmall
  | errNoMemory
  | errIoDataIntegrity
deriving DecidableEq, Repr

/-- Tree::kNodeSize: size of a node in bytes. -/
def kNodeSize : Nat := 8192

/-- Digest::kLength: digests are 32 bytes. -/
def kDigestLength : Nat := 32

/-- kDigestsPerNode = kNodeSize / Digest::kLength. -/
def kDigestsPerNode : Nat := kNodeSize / kDigestLength

/-- mxtl::roundup on unbounded naturals: least multiple of m that is ≥ x
    (for m > 0), computed exactly like the C++ template. -/
def roundup (x m : Nat) : Nat := (x + m - 1) / m * m

/-- NextLength (tree.cpp): a length in the current level mapped to the
    length of the digest array in the next level up. -/
def NextLength (length : Nat) : Nat :=
  if length > kNodeSize then roundup length kNodeSize / kDigestsPerNode else 0

/-- NextAligned (tree.cpp): node-aligned length in the next level up. -/
def NextAligned (length : Nat) : Nat := roundup (NextLength length) kNodeSize

/-- 2^64, the modulus of size_t arithmetic. -/
def U64 : Nat := 2 ^ 64

/-- mxtl::roundup as computed in 64-bit unsigned arithmetic: the addition
    x + m - 1 wraps modulo 2^64 (the subsequent division and multiplication
    cannot overflow). -/
def roundup64 (x m : Nat) : Nat := (x + m - 1) % U64 / m * m

/-- NextLength in 64-bit unsigned arithmetic. -/
def NextLength64 (length : Nat) : Nat :=
  if length > kNodeSize then roundup64 length kNodeSize / kDigestsPerNode else 0

/-- NextAligned in 64-bit unsigned arithmetic. -/
def NextAligned64 (length : Nat) : Nat := roundup64 (NextLength64 length) kNodeSize

/-- Tree::GetTreeLength, fuel-indexed: the fuel only bounds the recursion
    depth and fuel = dataLen always suffices because NextAligned strictly
    decreases on lengths above kNodeSize. -/
def GetTreeLengthF : Nat → Nat → Nat
  | fuel, dataLen =>
    let next := NextAligned dataLen
    if next = 0 then 0
    else
      match fuel with
      | 0 => 0
      | f + 1 => next + GetTreeLengthF f next

/-- Tree::GetTreeLength. -/
def GetTreeLength (dataLen : Nat) : Nat := GetTreeLengthF dataLen dataLen

/-- Byte memory: a total map from byte addresses to byte values. -/
abbrev Mem := Nat → Nat

/-- A C pointer: null, or an offset into the caller's data buffer, or an
    offset into the caller's tree buffer. -/
inductive Ptr where
  | null
  | data (off : Nat)
  | tree (off : Nat)
deriving DecidableEq, Repr

/-- Null test on pointers. -/
def Ptr.isNull : Ptr → Bool
  | .null => true
  | _ => false

/-- Pointer arithmetic p + n (null stays null; the source only ever forms
    null + n where the result is unused). -/
def Ptr.add : Ptr → Nat → Ptr
  | .null, _ => .null
  | .data o, n => .data (o + n)
  | .tree o, n => .tree (o + n)

/-- Read n bytes of memory starting at off. -/
def readBytesM (m : Mem) (off n : Nat) : List Nat :=
  (List.range n).map fun i => m (off + i)

/-- Read n bytes through a pointer (dm: data memory, tm: tree memory).
    Reads through null are unreachable in the modelled paths. -/
def readP (dm tm : Mem) : Ptr → Nat → List Nat
  | .null, n => List.replicate n 0
  | .data o, n => readBytesM dm o n
  | .tree o, n => readBytesM tm o n

/-- Write a list of bytes into memory at off. -/
def writeBytesM (m : Mem) (off : Nat) (l : List Nat) : Mem :=
  fun i => if off ≤ i ∧ i < off + l.length then l.getD (i - off) 0 else m i

/-- memset(p, 0, n). -/
def memsetM (m : Mem) (off n : Nat) : Mem :=
  fun i => if off ≤ i ∧ i < off + n then 0 else m i

/-- Write through a pointer into the tree memory (the builder only ever
    writes through tree pointers). -/
def writeP (tm : Mem) : Ptr → List Nat → Mem
  | .tree o, l => writeBytesM tm o l
  | _, _ => tm

/-- memset through a pointer into the tree memory. -/
def memsetP (tm : Mem) : Ptr → Nat → Mem
  | .tree o, n => memsetM tm o n
  | _, _ => tm

/-- v serialised as n little-endian bytes (the x86 memory image of the
    uint64_t locality and uint32_t length absorbed by DigestInit). -/
def toLE (n v : Nat) : List Nat := (List.range n).map fun i => v / 256 ^ i % 256

/-- DigestInit (tree.cpp wrapper): prime a digest with the 8-byte locality
    and the 4-byte length tag min(length, kNodeSize). -/
def DigestInit (locality length : Nat) : List Nat :=
  toLE 8 locality ++ toLE 4 (min length kNodeSize)

/-- DigestUpdate (tree.cpp wrapper): absorb from inP either length bytes or
    up to the next node boundary as determined from offset; returns the new
    digest state and the number of bytes consumed. -/
def DigestUpdate (dg : List Nat) (dm tm : Mem) (inP : Ptr) (offset length : Nat) :
    List Nat × Nat :=
  let c := min length (kNodeSize - offset % kNodeSize)
  (dg ++ readP dm tm inP c, c)

/-- DigestFinal (tree.cpp wrapper): zero-pad the absorbed data up to a node
    boundary before finalising. -/
def DigestFinal (dg : List Nat) (offset : Nat) : List Nat :=
  if offset % kNodeSize = 0 then dg
  else dg ++ List.replicate (kNodeSize - offset % kNodeSize) 0

/-- Modelled from the spec: the repository treats the digest primitive as an
    external, correct 32-byte hash; its finalised value (what Digest::CopyTo
    emits and Digest::operator== compares) is H applied to the absorbed byte
    stream, normalised to exactly 32 bytes. -/
def digestBytes (H : List Nat → List Nat) (dg : List Nat) : List Nat :=
  (H dg ++ List.replicate kDigestLength 0).take kDigestLength

/-- The per-level fields of a merkle::Tree object. -/
structure Level where
  inited : Bool
  level : Nat
  offset : Nat
  length : Nat
  digest : List Nat
deriving DecidableEq, Repr

/-- The chain of levels: the Tree object itself followed by its next_
    chain; [] plays the role of a null Tree pointer. -/
abbrev Chain := List Level

/-- A freshly constructed Tree() (default constructor). -/
def freshLevel (lvl : Nat) : Level := ⟨false, lvl, 0, 0, []⟩

/-- Tree::CreateInit, fuel-indexed; fuel = dataLen always suffices.  Fuel
    exhaustion takes the only non-recursive exit the source has at that
    point, the allocation-failure return (ERR_NO_MEMORY); it is unreachable
    for fuel ≥ dataLen. -/
def CreateInitF : Nat → Nat → Nat → Nat → Status × Chain
  | fuel, lvl, dataLen, treeLen =>
    let cur : Level := ⟨true, lvl, 0, dataLen, []⟩
    if dataLen ≤ kNodeSize then (.noError, [cur])
    else
      match fuel with
      | 0 => (.errNoMemory, [cur])
      | f + 1 =>
        let next := NextAligned dataLen
        if treeLen < next then (.errBufferTooSmall, [cur, freshLevel (lvl + 1)])
        else
          let r := CreateInitF f (lvl + 1) next (treeLen - next)
          (r.1, cur :: r.2)

/-- Tree::CreateInit on a fresh builder. -/
def CreateInit (dataLen treeLen : Nat) : Status × Chain :=
  CreateInitF dataLen 0 dataLen treeLen

/-- The result type of one level's CreateUpdate: status, updated chain from
    this level up, updated tree memory. -/
abbrev CUFun := Chain → Ptr → Nat → Ptr → Mem → Status × Chain × Mem

/-- The while loop of Tree::CreateUpdate for one level.  cu is CreateUpdate
    of the next level up; fuel ≥ len suffices since every iteration consumes
    at least one byte.  State: lvl (this level), rest (the next_ chain), inP
    (data cursor), len (bytes left), outP / treeOff (digest output cursor in
    this level's tree region), nextP (the next level's tree region), tm. -/
def updLoop (H : List Nat → List Nat) (cu : CUFun) (dm : Mem) :
    Nat → Level → Chain → Ptr → Nat → Ptr → Nat → Ptr → Mem →
    Status × Level × Chain × Mem
  | 0, lvl, rest, _, len, _, _, _, tm =>
    if len = 0 then (.noError, lvl, rest, tm) else (.errNoMemory, lvl, rest, tm)
  | f + 1, lvl, rest, inP, len, outP, treeOff, nextP, tm =>
    if len = 0 then (.noError, lvl, rest, tm)
    else
        -- check if this is the start of a node
        let lvl := if lvl.offset % kNodeSize = 0 then
            { lvl with digest := DigestInit (lvl.offset ||| lvl.level) (lvl.length - lvl.offset) }
          else lvl
        -- hash the node data
        let r := DigestUpdate lvl.digest dm tm inP lvl.offset len
        let c := r.2
        let lvl := { lvl with digest := r.1, offset := lvl.offset + c }
        let inP := inP.add c
        let len := len - c
        -- done if not at the end of a node
        if lvl.offset % kNodeSize ≠ 0 ∧ lvl.offset ≠ lvl.length then (.noError, lvl, rest, tm)
        else
          let lvl := { lvl with digest := DigestFinal lvl.digest lvl.offset }
          -- done if at the top of the tree
          if lvl.length ≤ kNodeSize then (.noError, lvl, rest, tm)
          else
            -- if this is the first digest in a new node, first zero it
            let tm := if treeOff % kNodeSize = 0 then memsetP tm outP kNodeSize else tm
            -- add the digest and ascend the tree
            let tm := writeP tm outP (digestBytes H lvl.digest)
            let r2 := cu rest outP kDigestLength nextP tm
            let outP := outP.add kDigestLength
            let treeOff := treeOff + kDigestLength
            if r2.1 ≠ .noError then (r2.1, lvl, r2.2.1, r2.2.2)
            else updLoop H cu dm f lvl r2.2.1 inP len outP treeOff nextP r2.2.2

/-- CreateUpdate for a chain whose next_ chain is deeper than the depth
    index: a null Tree dereference, unreachable when depth = chain length. -/
def cuBase : CUFun := fun t _ _ _ tm => (.errBadState, t, tm)

/-- One level of Tree::CreateUpdate, parameterised by the next level's
    CreateUpdate. -/
def cuStep (H : List Nat → List Nat) (dm : Mem) (cu : CUFun) : CUFun
  | [], _, _, _, tm => (.errBadState, [], tm)
  | lvl :: rest, dataP, len, treeP, tm =>
    -- must call CreateInit first
    if lvl.inited = false then (.errBadState, lvl :: rest, tm)
    -- early exit if no work to do
    else if len = 0 then (.noError, lvl :: rest, tm)
    -- must not overrun expected length
    else if lvl.offset + len > lvl.length then (.errOutOfRange, lvl :: rest, tm)
    -- must have data to read and a tree to fill if expecting more than one digest
    else if dataP.isNull ∨ (treeP.isNull ∧ lvl.length > kNodeSize) then
      (.errInvalidArgs, lvl :: rest, tm)
    else
      let treeOff := (lvl.offset - lvl.offset % kNodeSize) / kDigestsPerNode
      let outP := treeP.add treeOff
      let nextP := treeP.add (NextAligned lvl.length)
      let r := updLoop H cu dm len lvl rest dataP len outP treeOff nextP tm
      (r.1, r.2.1 :: r.2.2.1, r.2.2.2)

/-- Tree::CreateUpdate, depth-indexed on the length of the level chain. -/
def CreateUpdateD (H : List Nat → List Nat) (dm : Mem) : Nat → CUFun
  | 0 => cuBase
  | d + 1 => cuStep H dm (CreateUpdateD H dm d)

/-- Tree::CreateUpdate. -/
def CreateUpdate (H : List Nat → List Nat) (t : Chain) (dataP : Ptr) (len : Nat)
    (treeP : Ptr) (dm tm : Mem) : Status × Chain × Mem :=
  CreateUpdateD H dm t.length t dataP len treeP tm

/-- The result type of one level's CreateFinalInternal: status, updated
    chain, updated tree memory, root digest bytes (meaningful on success at
    the top level). -/
abbrev CFFun := Chain → Ptr → Ptr → Bool → Mem → Status × Chain × Mem × List Nat

/-- CreateFinalInternal below the depth index: unreachable null dereference. -/
def cfBase : CFFun := fun t _ _ _ tm => (.errBadState, t, tm, [])

/-- One level of Tree::CreateFinalInternal, parameterised by this level's
    CreateUpdate and the next level's CreateFinalInternal. -/
def cfStep (H : List Nat → List Nat) (cu : CUFun) (cf : CFFun) : CFFun
  | [], _, _, _, tm => (.errBadState, [], tm, [])
  | lvl :: rest, dataP, treeP, rootPresent, tm =>
    -- must call CreateInit first; must call CreateUpdate with all data first
    if lvl.inited = false ∨ (lvl.level = 0 ∧ lvl.offset ≠ lvl.length) then
      (.errBadState, lvl :: rest, tm, [])
    -- must have a root to write and a tree to fill if expecting more than one digest
    else if rootPresent = false ∨ (treeP.isNull ∧ lvl.length > kNodeSize) then
      (.errInvalidArgs, lvl :: rest, tm, [])
    else
      -- special case: the level is empty
      let lvl1 := if lvl.length = 0 then
          { lvl with digest := DigestFinal (DigestInit 0 0) 0 }
        else lvl
      -- consume padding if needed
      let tail := dataP.add lvl1.offset
      let r := cu (lvl1 :: rest) tail (lvl1.length - lvl1.offset) treeP tm
      if r.1 ≠ .noError then (r.1, r.2.1, r.2.2, [])
      else
        match r.2.1 with
        | [] => (.errBadState, [], r.2.2, [])
        | lvl2 :: rest2 =>
          let lvl3 := { lvl2 with inited := false }
          -- if at the top, the digest is the Merkle tree root
          if lvl3.length ≤ kNodeSize then
            (.noError, lvl3 :: rest2, r.2.2, digestBytes H lvl3.digest)
          else
            -- finalise the next level up
            let nextP := treeP.add (NextAligned lvl3.length)
            let r2 := cf rest2 treeP nextP rootPresent r.2.2
            (r2.1, lvl3 :: r2.2.1, r2.2.2.1, r2.2.2.2)

/-- Tree::CreateFinalInternal, depth-indexed on the chain length. -/
def CreateFinalD (H : List Nat → List Nat) (dm : Mem) : Nat → CFFun
  | 0 => cfBase
  | d + 1 => cfStep H (CreateUpdateD H dm (d + 1)) (CreateFinalD H dm d)

/-- Tree::CreateFinal: CreateFinalInternal with a null data pointer. -/
def CreateFinal (H : List Nat → List Nat) (t : Chain) (treeP : Ptr)
    (rootPresent : Bool) (dm tm : Mem) : Status × Chain × Mem × List Nat :=
  CreateFinalD H dm t.length t Ptr.null treeP rootPresent tm

/-- Tree::Create: the one-shot composition of CreateInit, CreateUpdate and
    CreateFinal.  Returns (status, final tree memory, root digest bytes). -/
def Create (H : List Nat → List Nat) (dataP : Ptr) (dataLen : Nat) (treeP : Ptr)
    (treeLen : Nat) (rootPresent : Bool) (dm tm : Mem) : Status × Mem × List Nat :=
  let r0 := CreateInit dataLen treeLen
  if r0.1 ≠ .noError then (r0.1, tm, [])
  else
    let r1 := CreateUpdate H r0.2 dataP dataLen treeP dm tm
    if r1.1 ≠ .noError then (r1.1, r1.2.2, [])
    else
      let r2 := CreateFinal H r1.2.1 treeP rootPresent dm r1.2.2
      (r2.1, r2.2.2.1, r2.2.2.2)

/-- Tree::VerifyRoot: hash either zero or one node and compare against the
    expected root digest. -/
def VerifyRoot (H : List Nat → List Nat) (dataP : Ptr) (rootLen level : Nat)
    (root : List Nat) (dm tm : Mem) : Status :=
  if (dataP.isNull ∧ rootLen ≠ 0) ∨ rootLen > kNodeSize then .errInvalidArgs
  else
    let dg := DigestInit level (if rootLen = 0 then 0 else kNodeSize)
    let r := DigestUpdate dg dm tm dataP 0 rootLen
    let dg := DigestFinal r.1 rootLen
    if digestBytes H dg = root then .noError else .errIoDataIntegrity

/-- The while loop of Tree::VerifyLevel; fuel ≥ len suffices. -/
def vlLoop (H : List Nat → List Nat) (dm tm : Mem) (dataLen level : Nat) :
    Nat → Ptr → Nat → Nat → Ptr → Status
  | 0, _, _, len, _ => if len = 0 then .noError else .errNoMemory
  | f + 1, inP, offset, len, expP =>
    if len = 0 then .noError
    else
        let dg := DigestInit (offset ||| level) (dataLen - offset)
        let r := DigestUpdate dg dm tm inP offset len
        let c := r.2
        let dg := DigestFinal r.1 (offset + c)
        if digestBytes H dg ≠ readP dm tm expP kDigestLength then .errIoDataIntegrity
        else vlLoop H dm tm dataLen level f (inP.add c) (offset + c) (len - c)
               (expP.add kDigestLength)

/-- Tree::VerifyLevel: check the (node-aligned extension of the) requested
    range of one level against the digests stored in the next level up. -/
def VerifyLevel (H : List Nat → List Nat) (dataP : Ptr) (dataLen : Nat) (treeP : Ptr)
    (offset length level : Nat) (dm tm : Mem) : Status :=
  -- must have more than one node of data and digests to check against
  if dataP.isNull ∨ dataLen ≤ kNodeSize ∨ treeP.isNull then .errInvalidArgs
  -- must not overrun expected length
  else if offset + length > dataLen then .errOutOfRange
  else
    -- align parameters to node boundaries
    let offA := offset - offset % kNodeSize
    let lenA := roundup (offA + length) kNodeSize - offA
    vlLoop H dm tm dataLen level lenA (dataP.add offA) offA lenA
      (treeP.add (offA / kDigestsPerNode))

/-- The while loop of Tree::Verify, fuel-indexed on the level ascent; fuel =
    the initial dataLen always suffices. -/
def VerifyD (H : List Nat → List Nat) (dm tm : Mem) (root : List Nat) :
    Nat → Ptr → Nat → Ptr → Nat → Nat → Nat → Nat → Nat → Status
  | fuel, dataP, dataLen, treeP, treeLen, offset, length, level, rootLen =>
    if dataLen ≤ kNodeSize then VerifyRoot H dataP rootLen level root dm tm
    else
      match fuel with
      | 0 => .errNoMemory
      | f + 1 =>
        -- verify the data in this level
        let rc := VerifyLevel H dataP dataLen treeP offset length level dm tm
        if rc ≠ .noError then rc
        else
          -- ascend to the next level up
          let rootLen2 := NextLength dataLen
          let dataLen2 := NextAligned dataLen
          let treeP2 := treeP.add dataLen2
          if treeLen < dataLen2 then .errBufferTooSmall
          else VerifyD H dm tm root f treeP dataLen2 treeP2 (treeLen - dataLen2)
                 (offset / kDigestsPerNode) (length / kDigestsPerNode) (level + 1) rootLen2

/-- Tree::Verify. -/
def Verify (H : List Nat → List Nat) (dataP : Ptr) (dataLen : Nat) (treeP : Ptr)
    (treeLen : Nat) (offset length : Nat) (root : List Nat) (dm tm : Mem) : Status :=
  VerifyD H dm tm root dataLen dataP dataLen treeP treeLen offset length 0 dataLen

end Merkle


namespace Merkle

/-! ### Tree geometry -/

theorem kNodeSize_eq : kNodeSize = 8192 := rfl

theorem kDigestsPerNode_eq : kDigestsPerNode = 256 := rfl

theorem kDigestLength_eq : kDigestLength = 32 := rfl

theorem nextAligned_lt {L : Nat} (h : kNodeSize < L) : NextAligned L < L := by
  rw [kNodeSize_eq] at h
  simp only [NextAligned, NextLength, roundup, kNodeSize_eq, kDigestsPerNode_eq]
  rw [if_pos (by omega : L > 8192)]
  omega

theorem nextAligned_eq_zero {L : Nat} : NextAligned L = 0 ↔ L ≤ kNodeSize := by
  simp only [NextAligned, NextLength, roundup, kNodeSize_eq, kDigestsPerNode_eq]
  split_ifs with h
  · omega
  · omega

theorem nextAligned64_lt {L : Nat} (h : kNodeSize < L) (hov : L + (kNodeSize - 1) < U64) :
    NextAligned64 L < L := by
  rw [kNodeSize_eq] at h
  rw [kNodeSize_eq] at hov
  unfold U64 at hov
  simp only [NextAligned64, NextLength64, roundup64, U64, kNodeSize_eq, kDigestsPerNode_eq]
  rw [if_pos (by omega : L > 8192)]
  have h1 : (L + 8192 - 1) % 2 ^ 64 = L + 8192 - 1 := Nat.mod_eq_of_lt (by omega)
  rw [h1]
  have h2 : ((L + 8192 - 1) / 8192 * 8192 / 256 + 8192 - 1) % 2 ^ 64
      = (L + 8192 - 1) / 8192 * 8192 / 256 + 8192 - 1 := Nat.mod_eq_of_lt (by omega)
  rw [h2]
  omega

theorem nextAligned64_eq_of_no_overflow {L : Nat} (hov : L + (kNodeSize - 1) < U64) :
    NextAligned64 L = NextAligned L := by
  rw [kNodeSize_eq] at hov
  unfold U64 at hov
  simp only [NextAligned64, NextLength64, roundup64, NextAligned, NextLength, roundup, U64,
    kNodeSize_eq, kDigestsPerNode_eq]
  have h1 : (L + 8192 - 1) % 2 ^ 64 = L + 8192 - 1 := Nat.mod_eq_of_lt (by omega)
  rw [h1]
  split_ifs with h
  · have h2 : ((L + 8192 - 1) / 8192 * 8192 / 256 + 8192 - 1) % 2 ^ 64
        = (L + 8192 - 1) / 8192 * 8192 / 256 + 8192 - 1 := Nat.mod_eq_of_lt (by omega)
    rw [h2]
  · have h2 : (0 + 8192 - 1) % 2 ^ 64 = 0 + 8192 - 1 := Nat.mod_eq_of_lt (by omega)
    rw [h2]

theorem gtlF_succ (f d : Nat) : GetTreeLengthF (f + 1) d =
    if NextAligned d = 0 then 0 else NextAligned d + GetTreeLengthF f (NextAligned d) := rfl

theorem gtlF_zero (d : Nat) : GetTreeLengthF 0 d = 0 := by
  rw [GetTreeLengthF]
  split <;> rfl

theorem gtlF_irrel : ∀ d f g, d ≤ f → d ≤ g → GetTreeLengthF f d = GetTreeLengthF g d := by
  intro d
  induction d using Nat.strong_induction_on with
  | _ d ih =>
    intro f g hf hg
    by_cases h0 : NextAligned d = 0
    · cases f with
      | zero => cases g with
        | zero => rfl
        | succ g => rw [gtlF_zero, gtlF_succ, if_pos h0]
      | succ f => cases g with
        | zero => rw [gtlF_zero, gtlF_succ, if_pos h0]
        | succ g => rw [gtlF_succ, gtlF_succ, if_pos h0, if_pos h0]
    · have hd : kNodeSize < d := by
        rcases Nat.lt_or_ge kNodeSize d with h | h
        · exact h
        · exact absurd (nextAligned_eq_zero.mpr h) h0
      have hlt := nextAligned_lt hd
      have hd1 : 1 ≤ d := by rw [kNodeSize_eq] at hd; omega
      cases f with
      | zero => omega
      | succ f => cases g with
        | zero => omega
        | succ g =>
          rw [gtlF_succ, gtlF_succ, if_neg h0, if_neg h0]
          have := ih (NextAligned d) hlt f g (by omega) (by omega)
          omega

end Merkle

namespace Merkle

/-! ### Unfolding equations for the fuel-indexed recursions -/

theorem ciF_small {dL : Nat} (f lvl tL : Nat) (h : dL ≤ kNodeSize) :
    CreateInitF f lvl dL tL = (.noError, [⟨true, lvl, 0, dL, []⟩]) := by
  rw [CreateInitF.eq_def]
  exact if_pos h

theorem ciF_zero_large {dL : Nat} (lvl tL : Nat) (h : kNodeSize < dL) :
    CreateInitF 0 lvl dL tL = (.errNoMemory, [⟨true, lvl, 0, dL, []⟩]) := by
  rw [CreateInitF.eq_def]
  exact if_neg (by omega)

theorem ciF_succ_large {dL : Nat} (f lvl tL : Nat) (h : kNodeSize < dL) :
    CreateInitF (f + 1) lvl dL tL =
      if tL < NextAligned dL then
        (.errBufferTooSmall, [⟨true, lvl, 0, dL, []⟩, freshLevel (lvl + 1)])
      else ((CreateInitF f (lvl + 1) (NextAligned dL) (tL - NextAligned dL)).1,
            ⟨true, lvl, 0, dL, []⟩ ::
              (CreateInitF f (lvl + 1) (NextAligned dL) (tL - NextAligned dL)).2) := by
  rw [CreateInitF.eq_def]
  exact if_neg (by omega)

theorem ciF_irrel : ∀ dL f g lvl tL, dL ≤ f → dL ≤ g →
    CreateInitF f lvl dL tL = CreateInitF g lvl dL tL := by
  intro dL
  induction dL using Nat.strong_induction_on with
  | _ dL ih =>
    intro f g lvl tL hf hg
    by_cases h : dL ≤ kNodeSize
    · rw [ciF_small f lvl tL h, ciF_small g lvl tL h]
    · have h2 : kNodeSize < dL := by omega
      have hlt := nextAligned_lt h2
      have hd1 : 1 ≤ dL := by rw [kNodeSize_eq] at h2; omega
      cases f with
      | zero => omega
      | succ f => cases g with
        | zero => omega
        | succ g =>
          rw [ciF_succ_large f lvl tL h2, ciF_succ_large g lvl tL h2]
          rw [ih (NextAligned dL) hlt f g (lvl + 1) (tL - NextAligned dL) (by omega) (by omega)]

theorem vD_small (H : List Nat → List Nat) (dm tm : Mem) (root : List Nat) (f : Nat)
    (dP : Ptr) {dL : Nat} (tP : Ptr) (tL off len lvl rLen : Nat) (h : dL ≤ kNodeSize) :
    VerifyD H dm tm root f dP dL tP tL off len lvl rLen = VerifyRoot H dP rLen lvl root dm tm := by
  rw [VerifyD.eq_def]
  exact if_pos h

theorem vD_zero_large (H : List Nat → List Nat) (dm tm : Mem) (root : List Nat)
    (dP : Ptr) {dL : Nat} (tP : Ptr) (tL off len lvl rLen : Nat) (h : kNodeSize < dL) :
    VerifyD H dm tm root 0 dP dL tP tL off len lvl rLen = .errNoMemory := by
  rw [VerifyD.eq_def]
  exact if_neg (by omega)

theorem vD_succ_large (H : List Nat → List Nat) (dm tm : Mem) (root : List Nat) (f : Nat)
    (dP : Ptr) {dL : Nat} (tP : Ptr) (tL off len lvl rLen : Nat) (h : kNodeSize < dL) :
    VerifyD H dm tm root (f + 1) dP dL tP tL off len lvl rLen =
      (let rc := VerifyLevel H dP dL tP off len lvl dm tm
       if rc ≠ .noError then rc
       else if tL < NextAligned dL then .errBufferTooSmall
       else VerifyD H dm tm root f tP (NextAligned dL) (tP.add (NextAligned dL))
              (tL - NextAligned dL) (off / kDigestsPerNode) (len / kDigestsPerNode)
              (lvl + 1) (NextLength dL)) := by
  rw [VerifyD.eq_def]
  exact if_neg (by omega)

theorem vD_irrel : ∀ dL f g H dm tm root dP tP tL off len lvl rLen, dL ≤ f → dL ≤ g →
    VerifyD H dm tm root f dP dL tP tL off len lvl rLen =
    VerifyD H dm tm root g dP dL tP tL off len lvl rLen := by
  intro dL
  induction dL using Nat.strong_induction_on with
  | _ dL ih =>
    intro f g H dm tm root dP tP tL off len lvl rLen hf hg
    by_cases h : dL ≤ kNodeSize
    · rw [vD_small H dm tm root f dP tP tL off len lvl rLen h,
          vD_small H dm tm root g dP tP tL off len lvl rLen h]
    · have h2 : kNodeSize < dL := by omega
      have hlt := nextAligned_lt h2
      have hd1 : 1 ≤ dL := by rw [kNodeSize_eq] at h2; omega
      cases f with
      | zero => omega
      | succ f => cases g with
        | zero => omega
        | succ g =>
          rw [vD_succ_large H dm tm root f dP tP tL off len lvl rLen h2,
              vD_succ_large H dm tm root g dP tP tL off len lvl rLen h2]
          simp only
          rw [ih (NextAligned dL) hlt f g H dm tm root tP (tP.add (NextAligned dL))
            (tL - NextAligned dL) (off / kDigestsPerNode) (len / kDigestsPerNode)
            (lvl + 1) (NextLength dL) (by omega) (by omega)]

end Merkle

namespace Merkle

/-- Following the spec's sizing formula (§3): the list of per-level aligned
    digest-array sizes A(L1), A(L2), …, where A(Lk) =
    roundup(next_len(L(k-1)), NODE_SIZE) = NextAligned(L(k-1)) and the levels
    stop at the first level whose aligned size is zero (the root level is
    not stored). -/
def specLevelSizes : Nat → Nat → List Nat
  | fuel, len =>
    if NextAligned len = 0 then []
    else
      match fuel with
      | 0 => []
      | f + 1 => NextAligned len :: specLevelSizes f (NextAligned len)

theorem sls_succ (f d : Nat) : specLevelSizes (f + 1) d =
    if NextAligned d = 0 then [] else NextAligned d :: specLevelSizes f (NextAligned d) := rfl

theorem sls_zero (d : Nat) : specLevelSizes 0 d = [] := by
  simp [specLevelSizes.eq_def]

theorem gtlF_any_zero {d : Nat} (f : Nat) (h0 : NextAligned d = 0) : GetTreeLengthF f d = 0 := by
  cases f with
  | zero => exact gtlF_zero d
  | succ f => rw [gtlF_succ, if_pos h0]

theorem sls_irrel : ∀ d f g, d ≤ f → d ≤ g → specLevelSizes f d = specLevelSizes g d := by
  intro d
  induction d using Nat.strong_induction_on with
  | _ d ih =>
    intro f g hf hg
    by_cases h0 : NextAligned d = 0
    · cases f with
      | zero => cases g with
        | zero => rfl
        | succ g => rw [sls_zero, sls_succ, if_pos h0]
      | succ f => cases g with
        | zero => rw [sls_zero, sls_succ, if_pos h0]
        | succ g => rw [sls_succ, sls_succ, if_pos h0, if_pos h0]
    · have hd : kNodeSize < d := by
        rcases Nat.lt_or_ge kNodeSize d with h | h
        · exact h
        · exact absurd (nextAligned_eq_zero.mpr h) h0
      have hlt := nextAligned_lt hd
      have hd1 : 1 ≤ d := by rw [kNodeSize_eq] at hd; omega
      cases f with
      | zero => omega
      | succ f => cases g with
        | zero => omega
        | succ g =>
          rw [sls_succ, sls_succ, if_neg h0, if_neg h0]
          rw [ih (NextAligned d) hlt f g (by omega) (by omega)]

theorem getTreeLength_eq_sum_specLevelSizes (d : Nat) :
    GetTreeLength d = (specLevelSizes d d).sum := by
  unfold GetTreeLength
  induction d using Nat.strong_induction_on with
  | _ d ih =>
    by_cases h0 : NextAligned d = 0
    · rw [gtlF_any_zero d h0]
      cases d with
      | zero => rfl
      | succ d => rw [sls_succ, if_pos h0]; rfl
    · have hd : kNodeSize < d := by
        rcases Nat.lt_or_ge kNodeSize d with h | h
        · exact h
        · exact absurd (nextAligned_eq_zero.mpr h) h0
      have hlt := nextAligned_lt hd
      have hd1 : 1 ≤ d := by rw [kNodeSize_eq] at hd; omega
      obtain ⟨d', rfl⟩ : ∃ d', d = d' + 1 := ⟨d - 1, by omega⟩
      rw [gtlF_succ, if_neg h0, sls_succ, if_neg h0, List.sum_cons]
      have h1 : GetTreeLengthF d' (NextAligned (d' + 1)) =
          GetTreeLengthF (NextAligned (d' + 1)) (NextAligned (d' + 1)) :=
        gtlF_irrel _ _ _ (by omega) (le_refl _)
      have h2 : specLevelSizes d' (NextAligned (d' + 1)) =
          specLevelSizes (NextAligned (d' + 1)) (NextAligned (d' + 1)) :=
        sls_irrel _ _ _ (by omega) (le_refl _)
      rw [h1, h2, ih (NextAligned (d' + 1)) hlt]

/-- C3 (tree sizing): GetTreeLength(data_len) is 0 exactly when data_len ≤
    NODE_SIZE; otherwise it is the sum over the non-root levels of the
    node-aligned digest-array sizes A(Lk) = roundup(next_len(L(k-1)),
    NODE_SIZE); and GetTreeLength(NODE_SIZE·DIGESTS_PER_NODE + 1) =
    3·NODE_SIZE. -/
theorem c3_tree_sizing :
    (∀ d, GetTreeLength d = 0 ↔ d ≤ kNodeSize) ∧
    (∀ d, GetTreeLength d = (specLevelSizes d d).sum) ∧
    GetTreeLength (kNodeSize * kDigestsPerNode + 1) = 3 * kNodeSize := by
  refine ⟨fun d => ?_, getTreeLength_eq_sum_specLevelSizes, by decide⟩
  unfold GetTreeLength
  constructor
  · intro h
    by_contra hgt
    have hd : kNodeSize < d := by omega
    have h0 : NextAligned d ≠ 0 := fun hz => by
      have := nextAligned_eq_zero.mp hz
      omega
    have hd1 : 1 ≤ d := by rw [kNodeSize_eq] at hd; omega
    obtain ⟨d', rfl⟩ : ∃ d', d = d' + 1 := ⟨d - 1, by omega⟩
    rw [gtlF_succ, if_neg h0] at h
    omega
  · intro h
    exact gtlF_any_zero d (nextAligned_eq_zero.mpr h)

/-- C10 (termination of the level recursion): on lengths above NODE_SIZE,
    NextAligned strictly decreases — both on ideal naturals and in the
    64-bit arithmetic of mxtl::roundup below its overflow region — and
    consequently the fuel-indexed recursions of GetTreeLength, CreateInit's
    level chain and Verify's ascending loop are independent of the fuel
    once it reaches the data length: the recursion depth (number of levels)
    is finite for every data_len. -/
theorem c10_level_recursion_terminates :
    (∀ L, kNodeSize < L → NextAligned L < L) ∧
    (∀ L, kNodeSize < L → L + (kNodeSize - 1) < U64 → NextAligned64 L < L) ∧
    (∀ d f g, d ≤ f → d ≤ g → GetTreeLengthF f d = GetTreeLengthF g d) ∧
    (∀ dL f g lvl tL, dL ≤ f → dL ≤ g →
      CreateInitF f lvl dL tL = CreateInitF g lvl dL tL) ∧
    (∀ dL f g H dm tm root dP tP tL off len lvl rLen, dL ≤ f → dL ≤ g →
      VerifyD H dm tm root f dP dL tP tL off len lvl rLen =
      VerifyD H dm tm root g dP dL tP tL off len lvl rLen) :=
  ⟨fun _ h => nextAligned_lt h, fun _ h hov => nextAligned64_lt h hov,
   gtlF_irrel, ciF_irrel, vD_irrel⟩

/-- Witness for c10_level_recursion_terminates at concrete inputs. -/
theorem c10_witness :
    NextAligned 8193 < 8193 ∧ NextAligned64 8193 < 8193 ∧
    GetTreeLengthF 10000 8193 = GetTreeLengthF 8193 8193 ∧
    CreateInitF 10000 0 8193 8192 = CreateInitF 8193 0 8193 8192 ∧
    VerifyD (fun _ => []) (fun _ => 0) (fun _ => 0) [] 10000 (.data 0) 8193 (.tree 0)
        8192 0 0 0 8193 =
      VerifyD (fun _ => []) (fun _ => 0) (fun _ => 0) [] 8193 (.data 0) 8193 (.tree 0)
        8192 0 0 0 8193 :=
  ⟨c10_level_recursion_terminates.1 8193 (by decide),
   c10_level_recursion_terminates.2.1 8193 (by decide) (by decide),
   c10_level_recursion_terminates.2.2.1 8193 10000 8193 (by omega) (le_refl _),
   c10_level_recursion_terminates.2.2.2.1 8193 10000 8193 0 8192 (by omega) (le_refl _),
   c10_level_recursion_terminates.2.2.2.2 8193 10000 8193 (fun _ => []) (fun _ => 0)
     (fun _ => 0) [] (.data 0) (.tree 0) 8192 0 0 0 8193 (by omega) (le_refl _)⟩

end Merkle

namespace Merkle

/-! ### Concrete instances used by the counterexamples and witnesses -/

/-- A digest function that ignores its input. -/
def hashConst : List Nat → List Nat := fun _ => List.replicate 32 0

/-- A digest function exposing the 12-byte header (locality ‖ length tag)
    of the absorbed stream. -/
def hashHeader : List Nat → List Nat := fun l => l.take 12

/-- A digest function exposing only the 4-byte length tag of the absorbed
    stream. -/
def hashTag : List Nat → List Nat := fun l => (l.drop 8).take 4

/-- A digest function probing whether a 13th byte was absorbed (cheap to
    evaluate even on node-sized streams). -/
def hashProbe : List Nat → List Nat := fun l => [l.getD 12 99]

/-- A concrete data memory whose bytes are all 7. -/
def dmSeven : Mem := fun _ => 7

/-- The all-zero memory. -/
def zeroMem : Mem := fun _ => 0

/-! ### C1 -/

/-- C1 (round-trip) fails on the code at data_len = 1: Tree::Create succeeds,
    but Tree::Verify of the full (in-range) blob rejects the root that was
    just created, because the builder hashes the single root node with
    length tag 1 while VerifyRoot rehashes it with length tag kNodeSize.
    Exhibited with the header-revealing digest function. -/
theorem c1_roundtrip_fails_at_one_byte :
    (Create hashHeader (.data 0) 1 (.tree 0) 0 true dmSeven zeroMem).1 = .noError ∧
    Verify hashHeader (.data 0) 1 (.tree 0) 0 0 1
      (Create hashHeader (.data 0) 1 (.tree 0) 0 true dmSeven zeroMem).2.2 dmSeven zeroMem =
      .errIoDataIntegrity := by
  decide

/-! ### C4 -/

/-- C4 fails on the code: with the tag-revealing digest function and a
    one-byte blob, the builder's root digest carries the length tag
    min(kNodeSize, length − offset) = 1, while Verify accepts precisely the
    digest whose tag is kNodeSize (VerifyRoot passes kNodeSize whenever
    root_len ≠ 0), and the two tags disagree; so the builder and the
    verifier do not use the same length tag for the same (root) node. -/
theorem c4_root_tag_differs_between_builder_and_verifier :
    (Create hashTag (.data 0) 1 (.tree 0) 0 true dmSeven zeroMem).2.2 =
      digestBytes hashTag (DigestInit 0 1) ∧
    Verify hashTag (.data 0) 1 (.tree 0) 0 0 1
      (digestBytes hashTag (DigestInit 0 kNodeSize)) dmSeven zeroMem = .noError ∧
    digestBytes hashTag (DigestInit 0 1) ≠ digestBytes hashTag (DigestInit 0 kNodeSize) := by
  decide

/-! ### C6 -/

/-- C6 fails on the code as stated: for data_len ≤ kNodeSize, Tree::Verify
    performs no range check at all (the level loop is skipped and VerifyRoot
    ignores offset and length), so offset + length > data_len does not
    produce ERR_OUT_OF_RANGE; here offset = length = data_len = 1 and Verify
    succeeds. -/
theorem c6_no_range_check_at_or_below_node_size :
    Verify hashConst (.data 0) 1 (.tree 0) 0 1 1 (List.replicate 32 0) dmSeven zeroMem =
      .noError := by
  decide

/-- C6 amended: when data_len exceeds kNodeSize and the data and tree
    pointers are non-null, Tree::Verify returns ERR_OUT_OF_RANGE whenever
    offset + length > data_len (sums taken on unbounded naturals). -/
theorem c6_range_check_above_node_size (H : List Nat → List Nat) (dP tP : Ptr)
    (dm tm : Mem) (root : List Nat) (dL tL off len : Nat)
    (hdl : kNodeSize < dL) (hdp : dP.isNull = false) (htp : tP.isNull = false)
    (hrange : dL < off + len) :
    Verify H dP dL tP tL off len root dm tm = .errOutOfRange := by
  unfold Verify
  have h1 : 1 ≤ dL := by rw [kNodeSize_eq] at hdl; omega
  obtain ⟨f, rfl⟩ : ∃ f, dL = f + 1 := ⟨dL - 1, by omega⟩
  rw [vD_succ_large H dm tm root f dP tP tL off len 0 (f + 1) hdl]
  have hg : ¬(dP.isNull = true ∨ (f + 1 : Nat) ≤ kNodeSize ∨ tP.isNull = true) := by
    push_neg
    exact ⟨by simp [hdp], by omega, by simp [htp]⟩
  have hvl : VerifyLevel H dP (f + 1) tP off len 0 dm tm = .errOutOfRange := by
    unfold VerifyLevel
    rw [if_neg hg, if_pos (by omega : off + len > f + 1)]
  simp only [hvl]
  simp

/-- Witness for c6_range_check_above_node_size. -/
theorem c6_range_check_witness :
    Verify hashConst (.data 0) 8193 (.tree 0) 0 8193 1 [] dmSeven zeroMem = .errOutOfRange :=
  c6_range_check_above_node_size hashConst (.data 0) (.tree 0) dmSeven zeroMem [] 8193 0
    8193 1 (by decide) rfl rfl (by decide)

/-! ### C7 -/

/-- C7 fails on the code: CreateInit(8193, 0) returns ERR_BUFFER_TOO_SMALL,
    yet a subsequent CreateUpdate on that builder returns NO_ERROR (not
    ERR_BAD_STATE): the failed CreateInit left level 0 marked initialized. -/
theorem c7_update_succeeds_after_failed_init :
    (CreateInit 8193 0).1 = .errBufferTooSmall ∧
    (CreateUpdate hashConst (CreateInit 8193 0).2 (.data 0) 1 (.tree 0) dmSeven zeroMem).1 =
      .noError := by
  decide

/-- C7 amended: CreateInit marks level 0 of the builder initialized (with
    offset 0 and length data_len) even when it returns an error, so the
    builder does not remain Fresh; in particular a subsequent CreateUpdate
    of length 0 returns NO_ERROR rather than ERR_BAD_STATE.  ERR_BAD_STATE
    is produced only when CreateInit was never called (or, for deep chains,
    when data reaches an upper level whose own init never ran). -/
theorem c7_failed_init_leaves_level0_open :
    ∀ dL tL, (∃ lvl rest, (CreateInit dL tL).2 = lvl :: rest ∧
      lvl.inited = true ∧ lvl.level = 0 ∧ lvl.offset = 0 ∧ lvl.length = dL) ∧
    (∀ (H : List Nat → List Nat) dP tP (dm tm : Mem),
      CreateUpdate H (CreateInit dL tL).2 dP 0 tP dm tm =
        (.noError, (CreateInit dL tL).2, tm)) := by
  intro dL tL
  have hshape : ∃ rest, (CreateInit dL tL).2 = ⟨true, 0, 0, dL, []⟩ :: rest := by
    unfold CreateInit
    by_cases h : dL ≤ kNodeSize
    · rw [ciF_small dL 0 tL h]
      exact ⟨[], rfl⟩
    · have h2 : kNodeSize < dL := by omega
      have h1 : 1 ≤ dL := by rw [kNodeSize_eq] at h2; omega
      obtain ⟨f, hf⟩ : ∃ f, dL = f + 1 := ⟨dL - 1, by omega⟩
      subst hf
      rw [ciF_succ_large f 0 tL h2]
      split_ifs
      · exact ⟨[freshLevel 1], rfl⟩
      · exact ⟨_, rfl⟩
  obtain ⟨rest, hr⟩ := hshape
  constructor
  · exact ⟨_, rest, hr, rfl, rfl, rfl, rfl⟩
  · intro H dP tP dm tm
    rw [hr]
    show CreateUpdateD H dm (rest.length + 1) _ _ _ _ _ = _
    show cuStep H dm (CreateUpdateD H dm rest.length) _ _ _ _ _ = _
    unfold cuStep
    simp

end Merkle

namespace Merkle

/-! ### C5 -/

/-- C5 fails on the code as stated: the distinguished empty root is the hash
    of the 12-byte header locality 0 ‖ length 0 with NO kNodeSize zero
    padding (DigestFinal at offset 0 adds none).  With the length-revealing
    digest function, CreateFinal over an empty blob emits the unpadded
    stream's digest, which differs from the digest of the padded stream the
    claim prescribes. -/
theorem c5_empty_root_is_unpadded :
    (CreateFinal hashProbe (CreateInit 0 0).2 (.tree 0) true dmSeven zeroMem).1 = .noError ∧
    (CreateFinal hashProbe (CreateInit 0 0).2 (.tree 0) true dmSeven zeroMem).2.2.2 =
      digestBytes hashProbe (DigestInit 0 0) ∧
    digestBytes hashProbe (DigestInit 0 0) ≠
      digestBytes hashProbe (DigestInit 0 0 ++ List.replicate kNodeSize 0) := by
  decide

/-- C5 amended: for data_len = 0, CreateFinal succeeds and emits the
    distinguished empty root Hash(locality 0 (8 bytes) ‖ length tag 0
    (4 bytes)) with no padding, and Tree::Verify recomputes exactly the same
    value for a zero-length blob, for every digest function and every
    pointer/memory environment. -/
theorem c5_empty_root (H : List Nat → List Nat) (tP dP tP2 : Ptr) (tL tL2 : Nat)
    (dm tm dm2 tm2 : Mem) :
    (CreateFinal H (CreateInit 0 tL).2 tP true dm tm).1 = .noError ∧
    (CreateFinal H (CreateInit 0 tL).2 tP true dm tm).2.2.2 =
      digestBytes H (DigestInit 0 0) ∧
    Verify H dP 0 tP2 tL2 0 0 (digestBytes H (DigestInit 0 0)) dm2 tm2 = .noError := by
  have hinit : (CreateInit 0 tL).2 = [⟨true, 0, 0, 0, []⟩] := rfl
  have hcf : CreateFinal H (CreateInit 0 tL).2 tP true dm tm =
      (.noError, [⟨false, 0, 0, 0, DigestInit 0 0⟩], tm, digestBytes H (DigestInit 0 0)) := by
    rw [hinit]
    have e : CreateFinal H [⟨true, 0, 0, 0, []⟩] tP true dm tm =
        cfStep H (CreateUpdateD H dm 1) (CreateFinalD H dm 0) [⟨true, 0, 0, 0, []⟩]
          Ptr.null tP true tm := rfl
    rw [e]
    simp [cfStep, cuStep, CreateUpdateD, kNodeSize_eq, DigestFinal]
  have hvr : Verify H dP 0 tP2 tL2 0 0 (digestBytes H (DigestInit 0 0)) dm2 tm2 = .noError := by
    unfold Verify
    rw [vD_small H dm2 tm2 _ 0 dP tP2 tL2 0 0 0 0 (by rw [kNodeSize_eq]; omega)]
    unfold VerifyRoot
    rw [if_neg (by simp [kNodeSize_eq])]
    unfold DigestUpdate
    cases dP <;> simp [readP, readBytesM, DigestFinal, kNodeSize_eq]
  exact ⟨by rw [hcf], by rw [hcf], hvr⟩

/-! ### C9 -/

/-- C9: CreateFinalInternal performs its ERR_BAD_STATE check (uninitialised,
    or level 0 with offset ≠ length) and its ERR_INVALID_ARGS check (no
    root slot, or null tree with more than one node expected) before any
    mutation: on these errors the level chain and the tree memory are
    returned unchanged (and no root is emitted), so any later calls on the
    builder behave exactly as if the failed call had never happened. -/
theorem c9_createfinal_checks_before_mutation (H : List Nat → List Nat) (lvl : Level)
    (rest : Chain) (tP : Ptr) (rootP : Bool) (dm tm : Mem) :
    ((lvl.inited = false ∨ (lvl.level = 0 ∧ lvl.offset ≠ lvl.length)) →
      CreateFinal H (lvl :: rest) tP rootP dm tm = (.errBadState, lvl :: rest, tm, [])) ∧
    (lvl.inited = true → ¬(lvl.level = 0 ∧ lvl.offset ≠ lvl.length) →
      (rootP = false ∨ (tP.isNull = true ∧ kNodeSize < lvl.length)) →
      CreateFinal H (lvl :: rest) tP rootP dm tm = (.errInvalidArgs, lvl :: rest, tm, [])) := by
  have e : CreateFinal H (lvl :: rest) tP rootP dm tm =
      cfStep H (CreateUpdateD H dm (rest.length + 1)) (CreateFinalD H dm rest.length)
        (lvl :: rest) Ptr.null tP rootP tm := rfl
  constructor
  · intro h
    rw [e]
    simp only [cfStep]
    rw [if_pos h]
  · intro h1 h2 h3
    rw [e]
    simp only [cfStep]
    rw [if_neg (by simp [h1, h2]), if_pos h3]

/-- Witness for c9_createfinal_checks_before_mutation: a builder that was
    never initialised fails CreateFinal with ERR_BAD_STATE and is unchanged;
    an initialised, half-fed level-0 builder fails the same way; and a
    complete builder with no root slot fails ERR_INVALID_ARGS unchanged. -/
theorem c9_witness :
    CreateFinal hashConst [freshLevel 0] (.tree 0) true dmSeven zeroMem =
      (.errBadState, [freshLevel 0], zeroMem, []) ∧
    CreateFinal hashConst [⟨true, 0, 3, 5, []⟩] (.tree 0) true dmSeven zeroMem =
      (.errBadState, [⟨true, 0, 3, 5, []⟩], zeroMem, []) ∧
    CreateFinal hashConst [⟨true, 0, 5, 5, []⟩] (.tree 0) false dmSeven zeroMem =
      (.errInvalidArgs, [⟨true, 0, 5, 5, []⟩], zeroMem, []) :=
  ⟨(c9_createfinal_checks_before_mutation hashConst (freshLevel 0) [] (.tree 0) true
      dmSeven zeroMem).1 (Or.inl rfl),
   (c9_createfinal_checks_before_mutation hashConst ⟨true, 0, 3, 5, []⟩ [] (.tree 0) true
      dmSeven zeroMem).1 (Or.inr ⟨rfl, by decide⟩),
   (c9_createfinal_checks_before_mutation hashConst ⟨true, 0, 5, 5, []⟩ [] (.tree 0) false
      dmSeven zeroMem).2 rfl (by simp) (Or.inl rfl)⟩

end Merkle

namespace Merkle

/-! ### Foundations for the streaming-equivalence proof (C2) -/

theorem Ptr.add_zero (p : Ptr) : p.add 0 = p := by
  cases p <;> rfl

theorem Ptr.add_add (p : Ptr) (x y : Nat) : (p.add x).add y = p.add (x + y) := by
  cases p <;> simp [Ptr.add, Nat.add_assoc]

theorem Ptr.isNull_add (p : Ptr) (n : Nat) : (p.add n).isNull = p.isNull := by
  cases p <;> rfl

theorem readBytesM_split (m : Mem) (off x y : Nat) :
    readBytesM m off (x + y) = readBytesM m off x ++ readBytesM m (off + x) y := by
  unfold readBytesM
  rw [List.range_add, List.map_append, List.map_map]
  congr 1
  ext i
  simp [Nat.add_assoc, Nat.add_comm x i]

theorem readP_split (dm tm : Mem) (p : Ptr) (x y : Nat) :
    readP dm tm p (x + y) = readP dm tm p x ++ readP dm tm (p.add x) y := by
  cases p with
  | null => simp only [readP]; exact List.replicate_add x y 0
  | data o => simp only [readP, Ptr.add]; exact readBytesM_split dm o x y
  | tree o => simp only [readP, Ptr.add]; exact readBytesM_split tm o x y

theorem updLoop_len_zero (H : List Nat → List Nat) (cu : CUFun) (dm : Mem) (fuel : Nat)
    (lvl : Level) (rest : Chain) (inP : Ptr) (outP : Ptr) (treeOff : Nat) (nextP : Ptr)
    (tm : Mem) :
    updLoop H cu dm fuel lvl rest inP 0 outP treeOff nextP tm = (.noError, lvl, rest, tm) := by
  cases fuel <;> simp [updLoop]

/-- The start-of-node priming step of the CreateUpdate loop. -/
def nodeInit (lvl : Level) : Level :=
  if lvl.offset % kNodeSize = 0 then
    { lvl with digest := DigestInit (lvl.offset ||| lvl.level) (lvl.length - lvl.offset) }
  else lvl

/-- The number of bytes one loop iteration consumes (DigestUpdate's return). -/
def chunkOf (lvl : Level) (len : Nat) : Nat := min len (kNodeSize - lvl.offset % kNodeSize)

/-- Absorbing c bytes from inP into the level's digest state. -/
def absorb (dm tm : Mem) (inP : Ptr) (c : Nat) (lvl : Level) : Level :=
  { lvl with digest := lvl.digest ++ readP dm tm inP c, offset := lvl.offset + c }

/-- The DigestFinal step at the end of a node. -/
def finalizeL (lvl : Level) : Level :=
  { lvl with digest := DigestFinal lvl.digest lvl.offset }

theorem updLoop_succ (H : List Nat → List Nat) (cu : CUFun) (dm : Mem) (f : Nat)
    (lvl : Level) (rest : Chain) (inP : Ptr) (len : Nat) (outP : Ptr) (treeOff : Nat)
    (nextP : Ptr) (tm : Mem) (h : len ≠ 0) :
    updLoop H cu dm (f + 1) lvl rest inP len outP treeOff nextP tm =
      (let c := chunkOf (nodeInit lvl) len
       let lvl2 := absorb dm tm inP c (nodeInit lvl)
       if lvl2.offset % kNodeSize ≠ 0 ∧ lvl2.offset ≠ lvl2.length then (.noError, lvl2, rest, tm)
       else
         let lvl3 := finalizeL lvl2
         if lvl3.length ≤ kNodeSize then (.noError, lvl3, rest, tm)
         else
           let tmA := if treeOff % kNodeSize = 0 then memsetP tm outP kNodeSize else tm
           let tmB := writeP tmA outP (digestBytes H lvl3.digest)
           let r2 := cu rest outP kDigestLength nextP tmB
           if r2.1 ≠ .noError then (r2.1, lvl3, r2.2.1, r2.2.2)
           else updLoop H cu dm f lvl3 r2.2.1 (inP.add c) (len - c) (outP.add kDigestLength)
                  (treeOff + kDigestLength) nextP r2.2.2) := by
  simp only [updLoop]
  rw [if_neg h]
  rfl

end Merkle

namespace Merkle

theorem nodeInit_offset (lvl : Level) : (nodeInit lvl).offset = lvl.offset := by
  unfold nodeInit; split <;> rfl

theorem nodeInit_inited (lvl : Level) : (nodeInit lvl).inited = lvl.inited := by
  unfold nodeInit; split <;> rfl

theorem nodeInit_level (lvl : Level) : (nodeInit lvl).level = lvl.level := by
  unfold nodeInit; split <;> rfl

theorem nodeInit_length (lvl : Level) : (nodeInit lvl).length = lvl.length := by
  unfold nodeInit; split <;> rfl

theorem absorb_offset (dm tm : Mem) (inP : Ptr) (c : Nat) (lvl : Level) :
    (absorb dm tm inP c lvl).offset = lvl.offset + c := rfl

theorem absorb_inited (dm tm : Mem) (inP : Ptr) (c : Nat) (lvl : Level) :
    (absorb dm tm inP c lvl).inited = lvl.inited := rfl

theorem absorb_level (dm tm : Mem) (inP : Ptr) (c : Nat) (lvl : Level) :
    (absorb dm tm inP c lvl).level = lvl.level := rfl

theorem absorb_length (dm tm : Mem) (inP : Ptr) (c : Nat) (lvl : Level) :
    (absorb dm tm inP c lvl).length = lvl.length := rfl

theorem finalizeL_offset (lvl : Level) : (finalizeL lvl).offset = lvl.offset := rfl

theorem finalizeL_inited (lvl : Level) : (finalizeL lvl).inited = lvl.inited := rfl

theorem finalizeL_level (lvl : Level) : (finalizeL lvl).level = lvl.level := rfl

theorem finalizeL_length (lvl : Level) : (finalizeL lvl).length = lvl.length := rfl

theorem chunkOf_nodeInit (lvl : Level) (len : Nat) :
    chunkOf (nodeInit lvl) len = chunkOf lvl len := by
  unfold chunkOf; rw [nodeInit_offset]

theorem chunkOf_le (lvl : Level) (len : Nat) : chunkOf lvl len ≤ len := Nat.min_le_left _ _

theorem chunkOf_pos (lvl : Level) {len : Nat} (h : len ≠ 0) : 1 ≤ chunkOf lvl len := by
  unfold chunkOf
  have h2 : lvl.offset % kNodeSize < kNodeSize := Nat.mod_lt _ (by rw [kNodeSize_eq]; omega)
  omega

theorem updLoop_irrel (H : List Nat → List Nat) (cu : CUFun) (dm : Mem) :
    ∀ f g lvl rest inP len outP treeOff nextP tm, len ≤ f → len ≤ g →
    updLoop H cu dm f lvl rest inP len outP treeOff nextP tm =
    updLoop H cu dm g lvl rest inP len outP treeOff nextP tm := by
  intro f
  induction f with
  | zero =>
    intro g lvl rest inP len outP treeOff nextP tm hf hg
    obtain rfl : len = 0 := by omega
    rw [updLoop_len_zero, updLoop_len_zero]
  | succ f ih =>
    intro g lvl rest inP len outP treeOff nextP tm hf hg
    by_cases h0 : len = 0
    · subst h0; rw [updLoop_len_zero, updLoop_len_zero]
    · obtain ⟨g', rfl⟩ : ∃ g', g = g' + 1 := ⟨g - 1, by omega⟩
      rw [updLoop_succ H cu dm f lvl rest inP len outP treeOff nextP tm h0,
          updLoop_succ H cu dm g' lvl rest inP len outP treeOff nextP tm h0]
      have hc := chunkOf_pos (nodeInit lvl) h0
      have hcle := chunkOf_le (nodeInit lvl) len
      simp only []
      split_ifs <;> first
        | rfl
        | exact ih _ _ _ _ _ _ _ _ _ (by omega) (by omega)

end Merkle

namespace Merkle

/-- The CreateUpdate loop never changes the head level's inited/level/length
    fields, and (when the next level's CreateUpdate preserves chain length)
    the length of the rest of the chain. -/
theorem updLoop_preserves (H : List Nat → List Nat) (cu : CUFun) (dm : Mem)
    (hcu : ∀ t dataP len treeP tm, ((cu t dataP len treeP tm).2.1).length = t.length) :
    ∀ fuel lvl rest inP len outP treeOff nextP tm,
      (updLoop H cu dm fuel lvl rest inP len outP treeOff nextP tm).2.1.inited = lvl.inited ∧
      (updLoop H cu dm fuel lvl rest inP len outP treeOff nextP tm).2.1.level = lvl.level ∧
      (updLoop H cu dm fuel lvl rest inP len outP treeOff nextP tm).2.1.length = lvl.length ∧
      (updLoop H cu dm fuel lvl rest inP len outP treeOff nextP tm).2.2.1.length = rest.length := by
  intro fuel
  induction fuel with
  | zero =>
    intro lvl rest inP len outP treeOff nextP tm
    by_cases h0 : len = 0
    · subst h0; rw [updLoop_len_zero]; exact ⟨rfl, rfl, rfl, rfl⟩
    · simp only [updLoop]; rw [if_neg h0]; exact ⟨rfl, rfl, rfl, rfl⟩
  | succ f ih =>
    intro lvl rest inP len outP treeOff nextP tm
    by_cases h0 : len = 0
    · subst h0; rw [updLoop_len_zero]; exact ⟨rfl, rfl, rfl, rfl⟩
    · rw [updLoop_succ H cu dm f lvl rest inP len outP treeOff nextP tm h0]
      simp only []
      split_ifs with h1 h2 h3 h4 h5
      · exact ⟨by simp [absorb_inited, nodeInit_inited], by simp [absorb_level, nodeInit_level],
          by simp [absorb_length, nodeInit_length], rfl⟩
      · exact ⟨by simp [finalizeL_inited, absorb_inited, nodeInit_inited],
          by simp [finalizeL_level, absorb_level, nodeInit_level],
          by simp [finalizeL_length, absorb_length, nodeInit_length], rfl⟩
      · exact ⟨by simp [finalizeL_inited, absorb_inited, nodeInit_inited],
          by simp [finalizeL_level, absorb_level, nodeInit_level],
          by simp [finalizeL_length, absorb_length, nodeInit_length], by rw [hcu]⟩
      · refine ⟨?_, ?_, ?_, ?_⟩
        · rw [(ih _ _ _ _ _ _ _ _).1]
          simp [finalizeL_inited, absorb_inited, nodeInit_inited]
        · rw [(ih _ _ _ _ _ _ _ _).2.1]
          simp [finalizeL_level, absorb_level, nodeInit_level]
        · rw [(ih _ _ _ _ _ _ _ _).2.2.1]
          simp [finalizeL_length, absorb_length, nodeInit_length]
        · rw [(ih _ _ _ _ _ _ _ _).2.2.2]
          rw [hcu]
      · exact ⟨by simp [finalizeL_inited, absorb_inited, nodeInit_inited],
          by simp [finalizeL_level, absorb_level, nodeInit_level],
          by simp [finalizeL_length, absorb_length, nodeInit_length], by rw [hcu]⟩
      · refine ⟨?_, ?_, ?_, ?_⟩
        · rw [(ih _ _ _ _ _ _ _ _).1]
          simp [finalizeL_inited, absorb_inited, nodeInit_inited]
        · rw [(ih _ _ _ _ _ _ _ _).2.1]
          simp [finalizeL_level, absorb_level, nodeInit_level]
        · rw [(ih _ _ _ _ _ _ _ _).2.2.1]
          simp [finalizeL_length, absorb_length, nodeInit_length]
        · rw [(ih _ _ _ _ _ _ _ _).2.2.2]
          rw [hcu]

end Merkle

namespace Merkle

/-- CreateUpdate preserves the length of the level chain. -/
theorem cuD_preserves_len (H : List Nat → List Nat) (dm : Mem) :
    ∀ d t dataP len treeP tm,
      ((CreateUpdateD H dm d t dataP len treeP tm).2.1).length = t.length := by
  intro d
  induction d with
  | zero => intro t dataP len treeP tm; rfl
  | succ d ih =>
    intro t dataP len treeP tm
    cases t with
    | nil => rfl
    | cons lvl rest =>
      show ((cuStep H dm (CreateUpdateD H dm d) (lvl :: rest) dataP len treeP tm).2.1).length = _
      simp only [cuStep]
      split_ifs <;> try rfl
      simp only [List.length_cons]
      rw [(updLoop_preserves H (CreateUpdateD H dm d) dm (fun t2 dP2 l2 tP2 tm2 => ih t2 dP2 l2 tP2 tm2) _ _ _ _ _ _ _ _ _).2.2.2]

/-- CreateUpdate leaves the head level's inited/level/length fields intact
    (on every path, success or error). -/
theorem cuD_head (H : List Nat → List Nat) (dm : Mem) :
    ∀ d lvl rest dataP len treeP tm,
      ∃ lvl2 rest2,
        (CreateUpdateD H dm d (lvl :: rest) dataP len treeP tm).2.1 = lvl2 :: rest2 ∧
        lvl2.inited = lvl.inited ∧ lvl2.level = lvl.level ∧ lvl2.length = lvl.length ∧
        rest2.length = rest.length := by
  intro d
  cases d with
  | zero => intro lvl rest dataP len treeP tm; exact ⟨lvl, rest, rfl, rfl, rfl, rfl, rfl⟩
  | succ d =>
    intro lvl rest dataP len treeP tm
    show ∃ lvl2 rest2, (cuStep H dm (CreateUpdateD H dm d) (lvl :: rest) dataP len treeP tm).2.1
      = lvl2 :: rest2 ∧ _
    simp only [cuStep]
    split_ifs <;> try exact ⟨lvl, rest, rfl, rfl, rfl, rfl, rfl⟩
    have hp := updLoop_preserves H (CreateUpdateD H dm d) dm
      (fun t2 dP2 l2 tP2 tm2 => cuD_preserves_len H dm d t2 dP2 l2 tP2 tm2)
      len lvl rest dataP len
      (treeP.add ((lvl.offset - lvl.offset % kNodeSize) / kDigestsPerNode))
      ((lvl.offset - lvl.offset % kNodeSize) / kDigestsPerNode)
      (treeP.add (NextAligned lvl.length)) tm
    exact ⟨_, _, rfl, hp.1, hp.2.1, hp.2.2.1, hp.2.2.2⟩

end Merkle

namespace Merkle

/-- On success (and within the expected length), the CreateUpdate loop
    advances the head level's offset by exactly the number of bytes fed. -/
theorem updLoop_offset (H : List Nat → List Nat) (cu : CUFun) (dm : Mem) :
    ∀ fuel lvl rest inP len outP treeOff nextP tm,
      (updLoop H cu dm fuel lvl rest inP len outP treeOff nextP tm).1 = .noError →
      lvl.offset + len ≤ lvl.length →
      (updLoop H cu dm fuel lvl rest inP len outP treeOff nextP tm).2.1.offset =
        lvl.offset + len := by
  intro fuel
  induction fuel with
  | zero =>
    intro lvl rest inP len outP treeOff nextP tm hok hr
    by_cases h0 : len = 0
    · subst h0; rw [updLoop_len_zero]; simp
    · simp only [updLoop] at hok
      rw [if_neg h0] at hok
      exact absurd hok (by simp)
  | succ f ih =>
    intro lvl rest inP len outP treeOff nextP tm hok hr
    by_cases h0 : len = 0
    · subst h0; rw [updLoop_len_zero]; simp
    · rw [updLoop_succ H cu dm f lvl rest inP len outP treeOff nextP tm h0] at hok ⊢
      simp only [] at hok ⊢
      have hmodlt : lvl.offset % kNodeSize < kNodeSize :=
        Nat.mod_lt _ (by rw [kNodeSize_eq]; omega)
      split_ifs at hok ⊢ with h1 h2 h3 h4 h5
      · simp only [absorb_offset, nodeInit_offset, absorb_length, nodeInit_length,
          chunkOf_nodeInit, chunkOf, kNodeSize_eq] at h1 ⊢
        rw [kNodeSize_eq] at hmodlt
        omega
      · simp only [absorb_offset, nodeInit_offset, absorb_length, nodeInit_length,
          finalizeL_offset, finalizeL_length, chunkOf_nodeInit, chunkOf, kNodeSize_eq]
            at h1 h2 ⊢
        rw [kNodeSize_eq] at hmodlt
        omega
      · exact absurd hok h4
      · rw [ih _ _ _ _ _ _ _ _ hok (by
          simp only [finalizeL_offset, finalizeL_length, absorb_offset, absorb_length,
            nodeInit_offset, nodeInit_length, chunkOf_nodeInit]
          have := chunkOf_le lvl len
          omega)]
        simp only [finalizeL_offset, absorb_offset, nodeInit_offset, chunkOf_nodeInit]
        have := chunkOf_le lvl len
        omega
      · exact absurd hok h5
      · rw [ih _ _ _ _ _ _ _ _ hok (by
          simp only [finalizeL_offset, finalizeL_length, absorb_offset, absorb_length,
            nodeInit_offset, nodeInit_length, chunkOf_nodeInit]
          have := chunkOf_le lvl len
          omega)]
        simp only [finalizeL_offset, absorb_offset, nodeInit_offset, chunkOf_nodeInit]
        have := chunkOf_le lvl len
        omega

end Merkle

namespace Merkle

/-- Unfolding Tree::CreateUpdate when all entry checks pass. -/
theorem cu_entry (H : List Nat → List Nat) (dm : Mem) (lvl : Level) (rest : Chain)
    (dataP : Ptr) (len : Nat) (treeP : Ptr) (tm : Mem)
    (hinit : lvl.inited = true) (h0 : len ≠ 0)
    (hrange : lvl.offset + len ≤ lvl.length)
    (hnull : ¬(dataP.isNull = true ∨ (treeP.isNull = true ∧ kNodeSize < lvl.length))) :
    CreateUpdate H (lvl :: rest) dataP len treeP dm tm =
      (let treeOff := (lvl.offset - lvl.offset % kNodeSize) / kDigestsPerNode
       let r := updLoop H (CreateUpdateD H dm rest.length) dm len lvl rest dataP len
                  (treeP.add treeOff) treeOff (treeP.add (NextAligned lvl.length)) tm
       (r.1, r.2.1 :: r.2.2.1, r.2.2.2)) := by
  show cuStep H dm (CreateUpdateD H dm rest.length) (lvl :: rest) dataP len treeP tm = _
  simp only [cuStep]
  rw [if_neg (by simp [hinit]), if_neg h0, if_neg (by omega), if_neg hnull]

/-- CreateUpdate with zero length is a no-op on an initialised builder. -/
theorem cu_len_zero (H : List Nat → List Nat) (dm : Mem) (lvl : Level) (rest : Chain)
    (dataP : Ptr) (treeP : Ptr) (tm : Mem) (hinit : lvl.inited = true) :
    CreateUpdate H (lvl :: rest) dataP 0 treeP dm tm = (.noError, lvl :: rest, tm) := by
  show cuStep H dm (CreateUpdateD H dm rest.length) (lvl :: rest) dataP 0 treeP tm = _
  simp only [cuStep]
  rw [if_neg (by simp [hinit])]
  simp

end Merkle

namespace Merkle

/-- A mid-chain continuation of the CreateUpdate loop from a node-aligned
    restart state is the same as a fresh CreateUpdate call. -/
theorem cu_reenter (H : List Nat → List Nat) (dm : Mem) (f : Nat) (lvl3 : Level)
    (rest2 : Chain) (dataP2 : Ptr) (len2 : Nat) (treeP outPX nextPX : Ptr)
    (treeOffX : Nat) (tm2 : Mem) (d : Nat) (hd : rest2.length = d)
    (hinit3 : lvl3.inited = true)
    (hrange3 : lvl3.offset + len2 ≤ lvl3.length)
    (hnull3 : ¬(dataP2.isNull = true ∨ (treeP.isNull = true ∧ kNodeSize < lvl3.length)))
    (hf : len2 ≤ f)
    (hargs : len2 ≠ 0 →
      treeOffX = (lvl3.offset - lvl3.offset % kNodeSize) / kDigestsPerNode ∧
      outPX = treeP.add ((lvl3.offset - lvl3.offset % kNodeSize) / kDigestsPerNode) ∧
      nextPX = treeP.add (NextAligned lvl3.length)) :
    ((updLoop H (CreateUpdateD H dm d) dm f lvl3 rest2 dataP2 len2 outPX
        treeOffX nextPX tm2).1,
     (updLoop H (CreateUpdateD H dm d) dm f lvl3 rest2 dataP2 len2 outPX
        treeOffX nextPX tm2).2.1 ::
       (updLoop H (CreateUpdateD H dm d) dm f lvl3 rest2 dataP2 len2 outPX
          treeOffX nextPX tm2).2.2.1,
     (updLoop H (CreateUpdateD H dm d) dm f lvl3 rest2 dataP2 len2 outPX
        treeOffX nextPX tm2).2.2.2) =
    CreateUpdate H (lvl3 :: rest2) dataP2 len2 treeP dm tm2 := by
  subst hd
  by_cases hl0 : len2 = 0
  · subst hl0
    rw [updLoop_len_zero, cu_len_zero H dm lvl3 rest2 dataP2 treeP tm2 hinit3]
  · obtain ⟨e1, e2, e3⟩ := hargs hl0
    subst e1
    subst e2
    subst e3
    rw [cu_entry H dm lvl3 rest2 dataP2 len2 treeP tm2 hinit3 hl0 hrange3 hnull3]
    simp only []
    rw [updLoop_irrel H (CreateUpdateD H dm rest2.length) dm f len2 lvl3 rest2 dataP2 len2
      (treeP.add ((lvl3.offset - lvl3.offset % kNodeSize) / kDigestsPerNode))
      ((lvl3.offset - lvl3.offset % kNodeSize) / kDigestsPerNode)
      (treeP.add (NextAligned lvl3.length)) tm2 hf (le_refl len2)]

end Merkle

namespace Merkle

/-- One-iteration unrolling of Tree::CreateUpdate: consuming one chunk (up to
    the node boundary) and, unless the loop stops, re-entering CreateUpdate
    on the remaining bytes. -/
theorem cu_unroll (H : List Nat → List Nat) (dm : Mem) (lvl : Level) (rest : Chain)
    (dataP : Ptr) (len : Nat) (treeP : Ptr) (tm : Mem)
    (hinit : lvl.inited = true) (h0 : len ≠ 0)
    (hrange : lvl.offset + len ≤ lvl.length)
    (hnull : ¬(dataP.isNull = true ∨ (treeP.isNull = true ∧ kNodeSize < lvl.length))) :
    CreateUpdate H (lvl :: rest) dataP len treeP dm tm =
      (let c := chunkOf lvl len
       let lvl2 := absorb dm tm dataP c (nodeInit lvl)
       if lvl2.offset % kNodeSize ≠ 0 ∧ lvl2.offset ≠ lvl2.length then
         (.noError, lvl2 :: rest, tm)
       else
         let lvl3 := finalizeL lvl2
         if lvl3.length ≤ kNodeSize then (.noError, lvl3 :: rest, tm)
         else
           let treeOff := (lvl.offset - lvl.offset % kNodeSize) / kDigestsPerNode
           let outP := treeP.add treeOff
           let tmA := if treeOff % kNodeSize = 0 then memsetP tm outP kNodeSize else tm
           let tmB := writeP tmA outP (digestBytes H lvl3.digest)
           let r2 := CreateUpdateD H dm rest.length rest outP kDigestLength
                       (treeP.add (NextAligned lvl.length)) tmB
           if r2.1 ≠ .noError then (r2.1, lvl3 :: r2.2.1, r2.2.2)
           else CreateUpdate H (lvl3 :: r2.2.1) (dataP.add c) (len - c) treeP dm r2.2.2) := by
  have hmodlt : lvl.offset % kNodeSize < kNodeSize :=
    Nat.mod_lt _ (by rw [kNodeSize_eq]; omega)
  have hcpos := chunkOf_pos lvl h0
  have hcle := chunkOf_le lvl len
  rw [cu_entry H dm lvl rest dataP len treeP tm hinit h0 hrange hnull]
  obtain ⟨f, rfl⟩ : ∃ f, len = f + 1 := ⟨len - 1, by omega⟩
  simp only []
  rw [updLoop_succ H (CreateUpdateD H dm rest.length) dm f lvl rest dataP (f + 1)
    (treeP.add ((lvl.offset - lvl.offset % kNodeSize) / kDigestsPerNode))
    ((lvl.offset - lvl.offset % kNodeSize) / kDigestsPerNode)
    (treeP.add (NextAligned lvl.length)) tm h0]
  simp only [chunkOf_nodeInit]
  split_ifs with h1 h2 h3 h4 h5
  · rfl
  · rfl
  · rfl
  · -- memset branch, recursion continues
    refine cu_reenter H dm f (finalizeL (absorb dm tm dataP (chunkOf lvl (f + 1)) (nodeInit lvl)))
      _ (dataP.add (chunkOf lvl (f + 1))) (f + 1 - chunkOf lvl (f + 1)) treeP _ _ _ _
      rest.length (cuD_preserves_len H dm rest.length rest _ _ _ _)
      (by simp [finalizeL_inited, absorb_inited, nodeInit_inited, hinit])
      (by simp only [finalizeL_offset, finalizeL_length, absorb_offset, absorb_length,
            nodeInit_offset, nodeInit_length]
          omega)
      (by rw [Ptr.isNull_add]
          simp only [finalizeL_length, absorb_length, nodeInit_length]
          exact hnull)
      (by omega)
      ?_
    intro hl2
    have haligned : (lvl.offset + chunkOf lvl (f + 1)) % kNodeSize = 0 := by
      rcases not_and_or.mp h1 with h | h
      · simpa [absorb_offset, nodeInit_offset] using h
      · exfalso
        simp only [absorb_offset, absorb_length, nodeInit_offset, nodeInit_length,
          not_not] at h
        simp only [chunkOf, kNodeSize_eq] at h hl2 ⊢
        omega
    have hctail : chunkOf lvl (f + 1) = kNodeSize - lvl.offset % kNodeSize := by
      simp only [chunkOf, kNodeSize_eq] at haligned ⊢
      rw [kNodeSize_eq] at hmodlt
      omega
    refine ⟨?_, ?_, ?_⟩
    · rw [kNodeSize_eq] at hmodlt
      simp only [finalizeL_offset, absorb_offset, nodeInit_offset, hctail,
        kNodeSize_eq, kDigestsPerNode_eq, kDigestLength_eq] at haligned ⊢
      omega
    · rw [Ptr.add_add]
      have h10 : (lvl.offset - lvl.offset % kNodeSize) / kDigestsPerNode + kDigestLength =
          ((finalizeL (absorb dm tm dataP (chunkOf lvl (f + 1)) (nodeInit lvl))).offset -
            (finalizeL (absorb dm tm dataP (chunkOf lvl (f + 1)) (nodeInit lvl))).offset %
              kNodeSize) / kDigestsPerNode := by
        rw [kNodeSize_eq] at hmodlt
        simp only [finalizeL_offset, absorb_offset, nodeInit_offset, hctail,
          kNodeSize_eq, kDigestsPerNode_eq, kDigestLength_eq] at haligned ⊢
        omega
      rw [h10]
    · have h11 : (finalizeL (absorb dm tm dataP (chunkOf lvl (f + 1)) (nodeInit lvl))).length
          = lvl.length := by
        simp [finalizeL_length, absorb_length, nodeInit_length]
      rw [h11]
  · rfl
  · -- no memset, recursion continues
    refine cu_reenter H dm f (finalizeL (absorb dm tm dataP (chunkOf lvl (f + 1)) (nodeInit lvl)))
      _ (dataP.add (chunkOf lvl (f + 1))) (f + 1 - chunkOf lvl (f + 1)) treeP _ _ _ _
      rest.length (cuD_preserves_len H dm rest.length rest _ _ _ _)
      (by simp [finalizeL_inited, absorb_inited, nodeInit_inited, hinit])
      (by simp only [finalizeL_offset, finalizeL_length, absorb_offset, absorb_length,
            nodeInit_offset, nodeInit_length]
          omega)
      (by rw [Ptr.isNull_add]
          simp only [finalizeL_length, absorb_length, nodeInit_length]
          exact hnull)
      (by omega)
      ?_
    intro hl2
    have haligned : (lvl.offset + chunkOf lvl (f + 1)) % kNodeSize = 0 := by
      rcases not_and_or.mp h1 with h | h
      · simpa [absorb_offset, nodeInit_offset] using h
      · exfalso
        simp only [absorb_offset, absorb_length, nodeInit_offset, nodeInit_length,
          not_not] at h
        simp only [chunkOf, kNodeSize_eq] at h hl2 ⊢
        omega
    have hctail : chunkOf lvl (f + 1) = kNodeSize - lvl.offset % kNodeSize := by
      simp only [chunkOf, kNodeSize_eq] at haligned ⊢
      rw [kNodeSize_eq] at hmodlt
      omega
    refine ⟨?_, ?_, ?_⟩
    · rw [kNodeSize_eq] at hmodlt
      simp only [finalizeL_offset, absorb_offset, nodeInit_offset, hctail,
        kNodeSize_eq, kDigestsPerNode_eq, kDigestLength_eq] at haligned ⊢
      omega
    · rw [Ptr.add_add]
      have h10 : (lvl.offset - lvl.offset % kNodeSize) / kDigestsPerNode + kDigestLength =
          ((finalizeL (absorb dm tm dataP (chunkOf lvl (f + 1)) (nodeInit lvl))).offset -
            (finalizeL (absorb dm tm dataP (chunkOf lvl (f + 1)) (nodeInit lvl))).offset %
              kNodeSize) / kDigestsPerNode := by
        rw [kNodeSize_eq] at hmodlt
        simp only [finalizeL_offset, absorb_offset, nodeInit_offset, hctail,
          kNodeSize_eq, kDigestsPerNode_eq, kDigestLength_eq] at haligned ⊢
        omega
      rw [h10]
    · have h11 : (finalizeL (absorb dm tm dataP (chunkOf lvl (f + 1)) (nodeInit lvl))).length
          = lvl.length := by
        simp [finalizeL_length, absorb_length, nodeInit_length]
      rw [h11]

end Merkle

namespace Merkle

theorem nodeInit_skip {lvl : Level} (h : ¬lvl.offset % kNodeSize = 0) : nodeInit lvl = lvl := by
  unfold nodeInit
  rw [if_neg h]

theorem cu_nil (H : List Nat → List Nat) (dm : Mem) (dataP : Ptr) (len : Nat) (treeP : Ptr)
    (tm : Mem) : CreateUpdate H [] dataP len treeP dm tm = (.errBadState, [], tm) := rfl

theorem cu_not_inited (H : List Nat → List Nat) (dm : Mem) (lvl : Level) (rest : Chain)
    (dataP : Ptr) (len : Nat) (treeP : Ptr) (tm : Mem) (h : lvl.inited = false) :
    CreateUpdate H (lvl :: rest) dataP len treeP dm tm = (.errBadState, lvl :: rest, tm) := by
  show cuStep H dm (CreateUpdateD H dm rest.length) (lvl :: rest) dataP len treeP tm = _
  simp only [cuStep]
  rw [if_pos h]

theorem cu_invalid (H : List Nat → List Nat) (dm : Mem) (lvl : Level) (rest : Chain)
    (dataP : Ptr) (len : Nat) (treeP : Ptr) (tm : Mem) (hinit : lvl.inited = true)
    (h0 : len ≠ 0) (hrange : lvl.offset + len ≤ lvl.length)
    (hnull : dataP.isNull = true ∨ (treeP.isNull = true ∧ kNodeSize < lvl.length)) :
    CreateUpdate H (lvl :: rest) dataP len treeP dm tm = (.errInvalidArgs, lvl :: rest, tm) := by
  show cuStep H dm (CreateUpdateD H dm rest.length) (lvl :: rest) dataP len treeP tm = _
  simp only [cuStep]
  rw [if_neg (by simp [hinit]), if_neg h0, if_neg (by omega), if_pos hnull]

end Merkle

namespace Merkle

theorem cu_split_tail (H : List Nat → List Nat) (dm : Mem) (r2 : Status × Chain × Mem)
    (lvl3 : Level) (dataP treeP : Ptr) (a b c : Nat)
    (hstep : ∀ (rest2 : Chain) (m : Mem),
      CreateUpdate H (lvl3 :: rest2) (dataP.add c) (a + b - c) treeP dm m =
        (let r := CreateUpdate H (lvl3 :: rest2) (dataP.add c) (a - c) treeP dm m
         if r.1 ≠ .noError then r
         else CreateUpdate H r.2.1 (dataP.add a) b treeP dm r.2.2)) :
    (if r2.1 ≠ .noError then (r2.1, lvl3 :: r2.2.1, r2.2.2)
     else CreateUpdate H (lvl3 :: r2.2.1) (dataP.add c) (a + b - c) treeP dm r2.2.2) =
      (let r := if r2.1 ≠ .noError then (r2.1, lvl3 :: r2.2.1, r2.2.2)
                else CreateUpdate H (lvl3 :: r2.2.1) (dataP.add c) (a - c) treeP dm r2.2.2
       if r.1 ≠ .noError then r
       else CreateUpdate H r.2.1 (dataP.add a) b treeP dm r.2.2) := by
  simp only []
  by_cases h4 : r2.1 = Status.noError
  · have hC : ¬(r2.1 ≠ Status.noError) := by simp [h4]
    rw [if_neg hC, if_neg hC]
    exact hstep r2.2.1 r2.2.2
  · rw [if_pos h4, if_pos h4]
    have h4a : (r2.1, lvl3 :: r2.2.1, r2.2.2).1 ≠ Status.noError := h4
    rw [if_pos h4a]

/-- Splitting a CreateUpdate call: feeding a + b bytes in one call gives the
    same status, chain and tree memory as feeding a bytes and then b bytes,
    provided a + b stays within the level's expected length. -/
theorem cu_split (H : List Nat → List Nat) (dm : Mem) :
    ∀ a b t dataP treeP tm,
      (∀ lvl (rest : Chain), t = lvl :: rest → lvl.offset + a + b ≤ lvl.length) →
      CreateUpdate H t dataP (a + b) treeP dm tm =
        (let r := CreateUpdate H t dataP a treeP dm tm
         if r.1 ≠ .noError then r
         else CreateUpdate H r.2.1 (dataP.add a) b treeP dm r.2.2) := by
  intro a
  induction a using Nat.strong_induction_on with
  | _ a iha =>
    intro b t dataP treeP tm hrange
    cases t with
    | nil =>
      rw [cu_nil, cu_nil]
      simp
    | cons lvl rest =>
      by_cases hinit : lvl.inited = true
      case neg =>
        have hi : lvl.inited = false := by
          cases h : lvl.inited
          · rfl
          · exact absurd h hinit
        rw [cu_not_inited H dm lvl rest dataP (a + b) treeP tm hi,
            cu_not_inited H dm lvl rest dataP a treeP tm hi]
        simp
      case pos =>
        have hr := hrange lvl rest rfl
        by_cases hb0 : b = 0
        · subst hb0
          rw [Nat.add_zero]
          simp only []
          by_cases hok : (CreateUpdate H (lvl :: rest) dataP a treeP dm tm).1 = .noError
          · rw [if_neg (by simp [hok])]
            obtain ⟨lvl2, rest2, hsh, hi2, _, _, _⟩ :=
              cuD_head H dm (lvl :: rest).length lvl rest dataP a treeP tm
            have hsh2 : (CreateUpdate H (lvl :: rest) dataP a treeP dm tm).2.1 = lvl2 :: rest2 := hsh
            rw [hsh2, cu_len_zero H dm lvl2 rest2 _ _ _ (by rw [hi2, hinit])]
            rw [← hok, ← hsh2]
          · rw [if_pos hok]
        · by_cases ha0 : a = 0
          · subst ha0
            rw [cu_len_zero H dm lvl rest dataP treeP tm hinit]
            simp only [Nat.zero_add]
            rw [Ptr.add_zero]
            simp
          · by_cases hnull : dataP.isNull = true ∨ (treeP.isNull = true ∧ kNodeSize < lvl.length)
            · rw [cu_invalid H dm lvl rest dataP (a + b) treeP tm hinit (by omega) (by omega) hnull,
                  cu_invalid H dm lvl rest dataP a treeP tm hinit ha0 (by omega) hnull]
              simp
            · -- main case: both runs pass the entry checks
              have hmodlt : lvl.offset % kNodeSize < kNodeSize :=
                Nat.mod_lt _ (by rw [kNodeSize_eq]; omega)
              rw [cu_unroll H dm lvl rest dataP (a + b) treeP tm hinit (by omega) (by omega) hnull,
                  cu_unroll H dm lvl rest dataP a treeP tm hinit ha0 (by omega) hnull]
              simp only []
              by_cases htail : kNodeSize - lvl.offset % kNodeSize ≤ a
              · -- the first chunk is the same for both runs
                have hc : chunkOf lvl (a + b) = chunkOf lvl a := by
                  unfold chunkOf; omega
                have hca : chunkOf lvl a = kNodeSize - lvl.offset % kNodeSize := by
                  unfold chunkOf; omega
                rw [hc]
                have hnb : ¬((absorb dm tm dataP (chunkOf lvl a) (nodeInit lvl)).offset %
                    kNodeSize ≠ 0 ∧ (absorb dm tm dataP (chunkOf lvl a) (nodeInit lvl)).offset ≠
                      (absorb dm tm dataP (chunkOf lvl a) (nodeInit lvl)).length) := by
                  simp only [absorb_offset, nodeInit_offset, hca, kNodeSize_eq]
                  omega
                rw [if_neg hnb, if_neg hnb]
                by_cases h2 : (finalizeL (absorb dm tm dataP (chunkOf lvl a) (nodeInit lvl))).length
                    ≤ kNodeSize
                · exfalso
                  have hl2 : (finalizeL (absorb dm tm dataP (chunkOf lvl a)
                      (nodeInit lvl))).length = lvl.length := by
                    simp [finalizeL_length, absorb_length, nodeInit_length]
                  rw [hl2] at h2
                  have hmodle : lvl.offset % kNodeSize ≤ lvl.offset := Nat.mod_le _ _
                  omega
                · rw [if_neg h2, if_neg h2]
                  refine cu_split_tail H dm _ _ dataP treeP a b (chunkOf lvl a) ?_
                  intro rest2 m
                  have hstep2 : a + b - chunkOf lvl a = (a - chunkOf lvl a) + b := by
                    have := chunkOf_le lvl a
                    omega
                  rw [hstep2]
                  rw [iha (a - chunkOf lvl a) (by have := chunkOf_pos lvl ha0; omega) b
                    (finalizeL (absorb dm tm dataP (chunkOf lvl a) (nodeInit lvl)) :: rest2)
                    (dataP.add (chunkOf lvl a)) treeP m ?_]
                  · simp only []
                    rw [Ptr.add_add]
                    have hpa : chunkOf lvl a + (a - chunkOf lvl a) = a := by
                      have := chunkOf_le lvl a
                      omega
                    rw [hpa]
                  · intro lvl4 rest4 hsh4
                    injection hsh4 with he1 he2
                    subst he1
                    simp only [finalizeL_offset, finalizeL_length, absorb_offset,
                      absorb_length, nodeInit_offset, nodeInit_length]
                    have := chunkOf_le lvl a
                    omega
              · -- a < tail: the a-run stops mid-node
                have hca : chunkOf lvl a = a := by
                  unfold chunkOf; omega
                have h1a : (absorb dm tm dataP (chunkOf lvl a) (nodeInit lvl)).offset %
                    kNodeSize ≠ 0 ∧ (absorb dm tm dataP (chunkOf lvl a) (nodeInit lvl)).offset ≠
                      (absorb dm tm dataP (chunkOf lvl a) (nodeInit lvl)).length := by
                  constructor
                  · simp only [absorb_offset, nodeInit_offset, hca]
                    rw [kNodeSize_eq] at hmodlt htail ⊢
                    omega
                  · simp only [absorb_offset, absorb_length, nodeInit_offset,
                      nodeInit_length, hca]
                    omega
                rw [if_pos h1a]
                have hok1 : ¬((Status.noError,
                    absorb dm tm dataP (chunkOf lvl a) (nodeInit lvl) :: rest, tm).1 ≠
                      Status.noError) := by simp
                rw [if_neg hok1]
                simp only []
                -- the continuation is a fresh CreateUpdate from the mid-node state
                have hinit2 : (absorb dm tm dataP (chunkOf lvl a) (nodeInit lvl)).inited = true := by
                  simp [absorb_inited, nodeInit_inited, hinit]
                have hrange2 : (absorb dm tm dataP (chunkOf lvl a) (nodeInit lvl)).offset + b ≤
                    (absorb dm tm dataP (chunkOf lvl a) (nodeInit lvl)).length := by
                  simp only [absorb_offset, absorb_length, nodeInit_offset, nodeInit_length, hca]
                  omega
                have hnull2 : ¬((dataP.add a).isNull = true ∨ (treeP.isNull = true ∧
                    kNodeSize < (absorb dm tm dataP (chunkOf lvl a) (nodeInit lvl)).length)) := by
                  rw [Ptr.isNull_add]
                  simp only [absorb_length, nodeInit_length]
                  exact hnull
                rw [cu_unroll H dm _ rest (dataP.add a) b treeP tm hinit2 hb0 hrange2 hnull2]
                simp only []
                -- identify the second iteration with the tail of the one-shot iteration
                have hskip : nodeInit (absorb dm tm dataP (chunkOf lvl a) (nodeInit lvl)) =
                    absorb dm tm dataP (chunkOf lvl a) (nodeInit lvl) := by
                  apply nodeInit_skip
                  exact h1a.1
                rw [hskip]
                have hsum : chunkOf lvl a + chunkOf (absorb dm tm dataP (chunkOf lvl a)
                    (nodeInit lvl)) b = chunkOf lvl (a + b) := by
                  simp only [chunkOf, absorb_offset, nodeInit_offset, hca, kNodeSize_eq]
                  rw [kNodeSize_eq] at hmodlt htail
                  omega
                have hstate : absorb dm tm (dataP.add a)
                    (chunkOf (absorb dm tm dataP (chunkOf lvl a) (nodeInit lvl)) b)
                    (absorb dm tm dataP (chunkOf lvl a) (nodeInit lvl)) =
                    absorb dm tm dataP (chunkOf lvl (a + b)) (nodeInit lvl) := by
                  unfold absorb
                  rw [← hsum, hca]
                  rw [readP_split dm tm dataP a _]
                  simp [List.append_assoc, Nat.add_assoc]
                  exact ⟨rfl, rfl⟩
                have htoff : ((absorb dm tm dataP (chunkOf lvl a) (nodeInit lvl)).offset -
                    (absorb dm tm dataP (chunkOf lvl a) (nodeInit lvl)).offset % kNodeSize) /
                      kDigestsPerNode =
                    (lvl.offset - lvl.offset % kNodeSize) / kDigestsPerNode := by
                  simp only [absorb_offset, nodeInit_offset, hca, kNodeSize_eq,
                    kDigestsPerNode_eq]
                  rw [kNodeSize_eq] at hmodlt htail
                  omega
                have hlen2 : (absorb dm tm dataP (chunkOf lvl a) (nodeInit lvl)).length =
                    lvl.length := by
                  simp [absorb_length, nodeInit_length]
                have hrem : b - chunkOf (absorb dm tm dataP (chunkOf lvl a) (nodeInit lvl)) b =
                    a + b - chunkOf lvl (a + b) := by
                  rw [← hsum, hca]
                  omega
                rw [hstate, htoff, hlen2, hrem, Ptr.add_add]
                have hpa : a + chunkOf (absorb dm tm dataP (chunkOf lvl a) (nodeInit lvl)) b =
                    chunkOf lvl (a + b) := by
                  rw [← hsum, hca]
                rw [hpa]

end Merkle

namespace Merkle

/-- On success within the expected length, CreateUpdate advances the head
    level's offset by exactly the number of bytes fed. -/
theorem cu_offset (H : List Nat → List Nat) (dm : Mem) (lvl : Level) (rest : Chain)
    (dataP : Ptr) (len : Nat) (treeP : Ptr) (tm : Mem)
    (hinit : lvl.inited = true) (hr : lvl.offset + len ≤ lvl.length)
    (hok : (CreateUpdate H (lvl :: rest) dataP len treeP dm tm).1 = .noError) :
    ∀ lvl2 rest2, (CreateUpdate H (lvl :: rest) dataP len treeP dm tm).2.1 = lvl2 :: rest2 →
      lvl2.offset = lvl.offset + len := by
  intro lvl2 rest2 hsh
  by_cases h0 : len = 0
  · subst h0
    rw [cu_len_zero H dm lvl rest dataP treeP tm hinit] at hsh
    injection hsh with e1 e2
    subst e1
    omega
  · by_cases hnull : dataP.isNull = true ∨ (treeP.isNull = true ∧ kNodeSize < lvl.length)
    · rw [cu_invalid H dm lvl rest dataP len treeP tm hinit h0 hr hnull] at hok
      exact absurd hok (by simp)
    · rw [cu_entry H dm lvl rest dataP len treeP tm hinit h0 hr hnull] at hok hsh
      simp only [] at hok hsh
      injection hsh with e1 e2
      rw [← e1]
      exact updLoop_offset H (CreateUpdateD H dm rest.length) dm len lvl rest dataP len
        (treeP.add ((lvl.offset - lvl.offset % kNodeSize) / kDigestsPerNode))
        ((lvl.offset - lvl.offset % kNodeSize) / kDigestsPerNode)
        (treeP.add (NextAligned lvl.length)) tm hok hr

/-- A caller's streaming loop: feed a list of chunk sizes to Tree::CreateUpdate
    in sequence, advancing the data pointer by each chunk and stopping at the
    first error. -/
def runUpdates (H : List Nat → List Nat) (dm : Mem) (treeP : Ptr) :
    List Nat → Chain → Ptr → Mem → Status × Chain × Mem
  | [], t, _, tm => (.noError, t, tm)
  | c :: cs, t, dataP, tm =>
    let r := CreateUpdate H t dataP c treeP dm tm
    if r.1 ≠ .noError then r
    else runUpdates H dm treeP cs r.2.1 (dataP.add c) r.2.2

/-- Any sequence of CreateUpdate chunks is equivalent to a single CreateUpdate
    of their total length. -/
theorem runUpdates_eq_cu (H : List Nat → List Nat) (dm : Mem) (treeP : Ptr) :
    ∀ (chunks : List Nat) (lvl : Level) (rest : Chain) (dataP : Ptr) (tm : Mem),
      lvl.inited = true →
      lvl.offset + chunks.sum ≤ lvl.length →
      runUpdates H dm treeP chunks (lvl :: rest) dataP tm =
        CreateUpdate H (lvl :: rest) dataP chunks.sum treeP dm tm := by
  intro chunks
  induction chunks with
  | nil =>
    intro lvl rest dataP tm hinit hr
    rw [List.sum_nil, cu_len_zero H dm lvl rest dataP treeP tm hinit]
    rfl
  | cons c cs ih =>
    intro lvl rest dataP tm hinit hr
    simp only [List.sum_cons] at hr ⊢
    rw [cu_split H dm c cs.sum (lvl :: rest) dataP treeP tm ?hr2]
    case hr2 =>
      intro lvl4 rest4 h4
      injection h4 with e1 e2
      subst e1
      omega
    show (let r := CreateUpdate H (lvl :: rest) dataP c treeP dm tm
          if r.1 ≠ .noError then r
          else runUpdates H dm treeP cs r.2.1 (dataP.add c) r.2.2) = _
    simp only []
    by_cases hok : (CreateUpdate H (lvl :: rest) dataP c treeP dm tm).1 = .noError
    · have hC : ¬((CreateUpdate H (lvl :: rest) dataP c treeP dm tm).1 ≠ .noError) := by
        simp [hok]
      rw [if_neg hC, if_neg hC]
      obtain ⟨lvl2, rest2, hsh, hi2, _, hl2, _⟩ :=
        cuD_head H dm (lvl :: rest).length lvl rest dataP c treeP tm
      have hsh2 : (CreateUpdate H (lvl :: rest) dataP c treeP dm tm).2.1 = lvl2 :: rest2 := hsh
      rw [hsh2]
      have hoff2 : lvl2.offset = lvl.offset + c :=
        cu_offset H dm lvl rest dataP c treeP tm hinit (by omega) hok lvl2 rest2 hsh2
      exact ih lvl2 rest2 (dataP.add c) _ (by rw [hi2, hinit]) (by rw [hoff2, hl2]; omega)
    · rw [if_pos hok, if_pos hok]

/-- CreateInit always returns a chain headed by an open level 0 state with
    offset 0 and the full data length. -/
theorem ciF_head : ∀ fuel lvl dL tL, ∃ rest,
    (CreateInitF fuel lvl dL tL).2 = Level.mk true lvl 0 dL [] :: rest := by
  intro fuel lvl dL tL
  by_cases h : dL ≤ kNodeSize
  · rw [ciF_small fuel lvl tL h]
    exact ⟨[], rfl⟩
  · cases fuel with
    | zero =>
      rw [ciF_zero_large lvl tL (by omega)]
      exact ⟨[], rfl⟩
    | succ f =>
      rw [ciF_succ_large f lvl tL (by omega)]
      by_cases h2 : tL < NextAligned dL
      · rw [if_pos h2]
        exact ⟨[freshLevel (lvl + 1)], rfl⟩
      · rw [if_neg h2]
        exact ⟨_, rfl⟩

/-- The streaming pipeline a caller runs by hand: Tree::CreateInit, then a
    sequence of Tree::CreateUpdate calls with caller-chosen chunk sizes, then
    Tree::CreateFinal, with the same early-error behaviour as Tree::Create. -/
def CreateChunked (H : List Nat → List Nat) (dataP : Ptr) (dataLen : Nat) (treeP : Ptr)
    (treeLen : Nat) (rootPresent : Bool) (dm tm : Mem) (chunks : List Nat) :
    Status × Mem × List Nat :=
  let r0 := CreateInit dataLen treeLen
  if r0.1 ≠ .noError then (r0.1, tm, [])
  else
    let r1 := runUpdates H dm treeP chunks r0.2 dataP tm
    if r1.1 ≠ .noError then (r1.1, r1.2.2, [])
    else
      let r2 := CreateFinal H r1.2.1 treeP rootPresent dm r1.2.2
      (r2.1, r2.2.2.1, r2.2.2.2)

end Merkle

namespace Merkle

/-- C2: Streaming equivalence — for every chunking of the data whose sizes sum
    to data_len (including byte-by-byte updates), CreateInit followed by that
    sequence of CreateUpdate calls followed by CreateFinal returns the same
    status, final tree memory and root digest as the one-shot Tree::Create on
    the same data; the result depends only on data_len and the data content. -/
theorem c2_streaming_equivalence (H : List Nat → List Nat) (dataP treeP : Ptr)
    (dataLen treeLen : Nat) (rootPresent : Bool) (dm tm : Mem) (chunks : List Nat)
    (hsum : chunks.sum = dataLen) :
    CreateChunked H dataP dataLen treeP treeLen rootPresent dm tm chunks =
      Create H dataP dataLen treeP treeLen rootPresent dm tm := by
  unfold CreateChunked Create
  simp only []
  obtain ⟨rest, hr0⟩ := ciF_head dataLen 0 dataLen treeLen
  have hr0a : (CreateInit dataLen treeLen).2 = Level.mk true 0 0 dataLen [] :: rest := hr0
  rw [hr0a]
  rw [runUpdates_eq_cu H dm treeP chunks (Level.mk true 0 0 dataLen []) rest dataP tm rfl
    (by simp [hsum])]
  rw [hsum]

theorem c2_witness :
    ([1, 1] : List Nat).sum = 2 ∧
    CreateChunked hashConst (Ptr.data 0) 2 (Ptr.tree 0) 0 true dmSeven zeroMem [1, 1] =
      Create hashConst (Ptr.data 0) 2 (Ptr.tree 0) 0 true dmSeven zeroMem :=
  ⟨rfl, c2_streaming_equivalence hashConst (Ptr.data 0) (Ptr.tree 0) 2 0 true dmSeven
    zeroMem [1, 1] rfl⟩

end Merkle

namespace Merkle

/-- Pointwise agreement of two (data memory, tree memory) pairs at the cell a
    pointer designates. -/
def agreeAtP (dm tm dm2 tm2 : Mem) : Ptr → Prop
  | .null => True
  | .data o => dm o = dm2 o
  | .tree o => tm o = tm2 o

theorem readBytesM_congr (m m2 : Mem) (off n : Nat)
    (h : ∀ i, i < n → m (off + i) = m2 (off + i)) :
    readBytesM m off n = readBytesM m2 off n := by
  unfold readBytesM
  apply List.map_congr_left
  intro a ha
  exact h a (List.mem_range.mp ha)

theorem readP_congr (dm tm dm2 tm2 : Mem) (p : Ptr) (n : Nat)
    (h : ∀ i, i < n → agreeAtP dm tm dm2 tm2 (p.add i)) :
    readP dm tm p n = readP dm2 tm2 p n := by
  cases p with
  | null => rfl
  | data o => exact readBytesM_congr dm dm2 o n (fun i hi => h i hi)
  | tree o => exact readBytesM_congr tm tm2 o n (fun i hi => h i hi)

theorem VerifyRoot_congr (H : List Nat → List Nat) (dataP : Ptr) (rootLen level : Nat)
    (root : List Nat) (dm tm dm2 tm2 : Mem)
    (h : ∀ i, i < min rootLen kNodeSize → agreeAtP dm tm dm2 tm2 (dataP.add i)) :
    VerifyRoot H dataP rootLen level root dm tm =
      VerifyRoot H dataP rootLen level root dm2 tm2 := by
  unfold VerifyRoot DigestUpdate
  have hr : readP dm tm dataP (min rootLen (kNodeSize - 0 % kNodeSize)) =
      readP dm2 tm2 dataP (min rootLen (kNodeSize - 0 % kNodeSize)) := by
    apply readP_congr
    intro i hi
    apply h
    simpa using hi
  simp only []
  simp only [hr]

end Merkle

namespace Merkle

/-- The VerifyLevel loop depends only on the data bytes it absorbs and the
    expected digests it compares against. -/
theorem vlLoop_congr (H : List Nat → List Nat) (dm tm dm2 tm2 : Mem) (dataLen level : Nat) :
    ∀ (fuel : Nat) (inP : Ptr) (offset len : Nat) (expP : Ptr),
      (∀ i, i < len → agreeAtP dm tm dm2 tm2 (inP.add i)) →
      (∀ i, len ≠ 0 →
        i < roundup (offset % kNodeSize + len) kNodeSize / kDigestsPerNode →
        agreeAtP dm tm dm2 tm2 (expP.add i)) →
      vlLoop H dm tm dataLen level fuel inP offset len expP =
        vlLoop H dm2 tm2 dataLen level fuel inP offset len expP := by
  intro fuel
  induction fuel with
  | zero => intro inP offset len expP hd he; rfl
  | succ f ih =>
    intro inP offset len expP hd he
    by_cases h0 : len = 0
    · subst h0; rfl
    · have hread : readP dm tm inP (min len (kNodeSize - offset % kNodeSize)) =
          readP dm2 tm2 inP (min len (kNodeSize - offset % kNodeSize)) := by
        apply readP_congr
        intro i hi
        exact hd i (by omega)
      have hexp : readP dm tm expP kDigestLength = readP dm2 tm2 expP kDigestLength := by
        apply readP_congr
        intro i hi
        apply he i h0
        simp only [roundup, kNodeSize_eq, kDigestsPerNode_eq, kDigestLength_eq] at hi ⊢
        omega
      have hd2 : ∀ i, i < len - min len (kNodeSize - offset % kNodeSize) →
          agreeAtP dm tm dm2 tm2
            ((inP.add (min len (kNodeSize - offset % kNodeSize))).add i) := by
        intro i hi
        rw [Ptr.add_add]
        exact hd _ (by omega)
      have he2 : ∀ i, len - min len (kNodeSize - offset % kNodeSize) ≠ 0 →
          i < roundup ((offset + min len (kNodeSize - offset % kNodeSize)) % kNodeSize +
            (len - min len (kNodeSize - offset % kNodeSize))) kNodeSize / kDigestsPerNode →
          agreeAtP dm tm dm2 tm2 ((expP.add kDigestLength).add i) := by
        intro i hne hi
        rw [Ptr.add_add]
        apply he _ h0
        simp only [roundup, kNodeSize_eq, kDigestsPerNode_eq, kDigestLength_eq]
          at hi hne ⊢
        omega
      simp only [vlLoop, DigestUpdate]
      rw [if_neg h0, if_neg h0]
      simp only [hread, hexp]
      split_ifs <;>
        first
          | rfl
          | exact ih (inP.add (min len (kNodeSize - offset % kNodeSize)))
              (offset + min len (kNodeSize - offset % kNodeSize))
              (len - min len (kNodeSize - offset % kNodeSize))
              (expP.add kDigestLength) hd2 he2

end Merkle

namespace Merkle

/-- Tree::VerifyLevel depends only on the node-aligned extension of the
    requested range in this level's data and on the corresponding expected
    digests in the next level up. -/
theorem VerifyLevel_congr (H : List Nat → List Nat) (dataP : Ptr) (dataLen : Nat)
    (treeP : Ptr) (offset length level : Nat) (dm tm dm2 tm2 : Mem)
    (hd : ∀ i, offset - offset % kNodeSize ≤ i →
      i < roundup (offset - offset % kNodeSize + length) kNodeSize →
      agreeAtP dm tm dm2 tm2 (dataP.add i))
    (ht : ∀ i, (offset - offset % kNodeSize) / kDigestsPerNode ≤ i →
      i < roundup (offset - offset % kNodeSize + length) kNodeSize / kDigestsPerNode →
      agreeAtP dm tm dm2 tm2 (treeP.add i)) :
    VerifyLevel H dataP dataLen treeP offset length level dm tm =
      VerifyLevel H dataP dataLen treeP offset length level dm2 tm2 := by
  simp only [VerifyLevel]
  split_ifs with h1 h2
  · rfl
  · rfl
  · apply vlLoop_congr
    · intro i hi
      rw [Ptr.add_add]
      apply hd
      · omega
      · simp only [roundup, kNodeSize_eq] at hi ⊢
        omega
    · intro i hne hi
      rw [Ptr.add_add]
      apply ht
      · omega
      · simp only [roundup, kNodeSize_eq, kDigestsPerNode_eq] at hi ⊢
        omega

end Merkle

namespace Merkle

/-- The bytes Tree::Verify reads through its current data pointer: the whole
    (truncated) top node when the level fits in one node, otherwise the
    node-aligned extension of the requested range in this level. -/
def vdTouchedD (fuel dataLen offset length rootLen i : Nat) : Bool :=
  if dataLen ≤ kNodeSize then decide (i < min rootLen kNodeSize)
  else match fuel with
  | 0 => false
  | _ + 1 =>
    decide (offset - offset % kNodeSize ≤ i) &&
    decide (i < roundup (offset - offset % kNodeSize + length) kNodeSize)

/-- The bytes Tree::Verify reads through its current tree pointer: the
    expected digests for the aligned extension of the range at this level,
    plus (recursively) everything the ascent to the next level reads there. -/
def vdTouchedT : Nat → Nat → Nat → Nat → Nat → Nat → Nat → Bool
  | fuel, dataLen, treeLen, offset, length, _rootLen, i =>
    if dataLen ≤ kNodeSize then false
    else match fuel with
    | 0 => false
    | f + 1 =>
      (decide ((offset - offset % kNodeSize) / kDigestsPerNode ≤ i) &&
       decide (i < roundup (offset - offset % kNodeSize + length) kNodeSize /
         kDigestsPerNode)) ||
      (if treeLen < NextAligned dataLen then false
       else
         vdTouchedD f (NextAligned dataLen) (offset / kDigestsPerNode)
           (length / kDigestsPerNode) (NextLength dataLen) i ||
         (decide (NextAligned dataLen ≤ i) &&
          vdTouchedT f (NextAligned dataLen) (treeLen - NextAligned dataLen)
            (offset / kDigestsPerNode) (length / kDigestsPerNode) (NextLength dataLen)
            (i - NextAligned dataLen)))

/-- The Verify loop returns the same status on two memory pairs that agree on
    every byte it touches. -/
theorem vD_congr (H : List Nat → List Nat) (root : List Nat) :
    ∀ (fuel : Nat) (dataP treeP : Ptr)
      (dataLen treeLen offset length level rootLen : Nat) (dm tm dm2 tm2 : Mem),
      (∀ i, vdTouchedD fuel dataLen offset length rootLen i = true →
        agreeAtP dm tm dm2 tm2 (dataP.add i)) →
      (∀ i, vdTouchedT fuel dataLen treeLen offset length rootLen i = true →
        agreeAtP dm tm dm2 tm2 (treeP.add i)) →
      VerifyD H dm tm root fuel dataP dataLen treeP treeLen offset length level rootLen =
        VerifyD H dm2 tm2 root fuel dataP dataLen treeP treeLen offset length level rootLen := by
  intro fuel
  induction fuel with
  | zero =>
    intro dataP treeP dataLen treeLen offset length level rootLen dm tm dm2 tm2 hd ht
    by_cases h : dataLen ≤ kNodeSize
    · rw [vD_small H dm tm root 0 dataP treeP treeLen offset length level rootLen h,
          vD_small H dm2 tm2 root 0 dataP treeP treeLen offset length level rootLen h]
      apply VerifyRoot_congr
      intro i hi
      apply hd
      simp only [vdTouchedD, if_pos h, decide_eq_true_eq]
      exact hi
    · rw [vD_zero_large H dm tm root dataP treeP treeLen offset length level rootLen
            (by omega),
          vD_zero_large H dm2 tm2 root dataP treeP treeLen offset length level rootLen
            (by omega)]
  | succ f ih =>
    intro dataP treeP dataLen treeLen offset length level rootLen dm tm dm2 tm2 hd ht
    by_cases h : dataLen ≤ kNodeSize
    · rw [vD_small H dm tm root (f + 1) dataP treeP treeLen offset length level rootLen h,
          vD_small H dm2 tm2 root (f + 1) dataP treeP treeLen offset length level rootLen h]
      apply VerifyRoot_congr
      intro i hi
      apply hd
      simp only [vdTouchedD, if_pos h, decide_eq_true_eq]
      exact hi
    · rw [vD_succ_large H dm tm root f dataP treeP treeLen offset length level rootLen
            (by omega),
          vD_succ_large H dm2 tm2 root f dataP treeP treeLen offset length level rootLen
            (by omega)]
      simp only []
      have hvl : VerifyLevel H dataP dataLen treeP offset length level dm tm =
          VerifyLevel H dataP dataLen treeP offset length level dm2 tm2 := by
        apply VerifyLevel_congr
        · intro i h1 h2
          apply hd
          simp only [vdTouchedD, if_neg h, Bool.and_eq_true, decide_eq_true_eq]
          exact ⟨h1, h2⟩
        · intro i h1 h2
          apply ht
          simp only [vdTouchedT, if_neg h, Bool.or_eq_true, Bool.and_eq_true,
            decide_eq_true_eq]
          exact Or.inl ⟨h1, h2⟩
      rw [hvl]
      by_cases hrc : VerifyLevel H dataP dataLen treeP offset length level dm2 tm2 ≠ .noError
      · rw [if_pos hrc, if_pos hrc]
      · rw [if_neg hrc, if_neg hrc]
        by_cases htl : treeLen < NextAligned dataLen
        · rw [if_pos htl, if_pos htl]
        · rw [if_neg htl, if_neg htl]
          apply ih
          · intro i hi
            apply ht
            simp only [vdTouchedT, if_neg h, Bool.or_eq_true, Bool.and_eq_true,
              decide_eq_true_eq]
            refine Or.inr ?_
            rw [if_neg htl]
            simp only [Bool.or_eq_true]
            exact Or.inl hi
          · intro i hi
            rw [Ptr.add_add]
            apply ht
            simp only [vdTouchedT, if_neg h, Bool.or_eq_true, Bool.and_eq_true,
              decide_eq_true_eq]
            refine Or.inr ?_
            rw [if_neg htl]
            simp only [Bool.or_eq_true, Bool.and_eq_true, decide_eq_true_eq]
            refine Or.inr ⟨by omega, ?_⟩
            rw [Nat.add_sub_cancel_left]
            exact hi

end Merkle

namespace Merkle

/-- C8: Outside-region tolerance — if two data memories and two tree memories
    agree on every byte Tree::Verify touches for the requested range (the
    node-aligned extension of [offset, offset+length) at each level, the
    expected digests on the path to the root, and the top node), then Verify
    returns the same status on both, so flipping any bit strictly outside
    that region cannot change the outcome of verifying that range. -/
theorem c8_outside_region_tolerance (H : List Nat → List Nat) (dataP treeP : Ptr)
    (dataLen treeLen offset length : Nat) (root : List Nat) (dm tm dm2 tm2 : Mem)
    (hd : ∀ i, vdTouchedD dataLen dataLen offset length dataLen i = true →
      agreeAtP dm tm dm2 tm2 (dataP.add i))
    (ht : ∀ i, vdTouchedT dataLen dataLen treeLen offset length dataLen i = true →
      agreeAtP dm tm dm2 tm2 (treeP.add i)) :
    Verify H dataP dataLen treeP treeLen offset length root dm tm =
      Verify H dataP dataLen treeP treeLen offset length root dm2 tm2 :=
  vD_congr H root dataLen dataP treeP dataLen treeLen offset length 0 dataLen
    dm tm dm2 tm2 hd ht

/-- A data memory that agrees with dmSeven exactly on the region Verify
    touches for data_len 8193, range [0, 8193). -/
def dmC8 : Mem := fun i => if i < 16384 then 7 else 9

/-- A tree memory that agrees with zeroMem exactly on the 64 digest bytes
    Verify reads for that range. -/
def tmC8 : Mem := fun i => if i < 64 then 0 else 5

theorem c8_witness :
    (∀ i, vdTouchedD 8193 8193 0 8193 8193 i = true →
      agreeAtP dmSeven zeroMem dmC8 tmC8 ((Ptr.data 0).add i)) ∧
    (∀ i, vdTouchedT 8193 8193 0 0 8193 8193 i = true →
      agreeAtP dmSeven zeroMem dmC8 tmC8 ((Ptr.tree 0).add i)) ∧
    Verify hashProbe (Ptr.data 0) 8193 (Ptr.tree 0) 0 0 8193 [] dmSeven zeroMem =
      Verify hashProbe (Ptr.data 0) 8193 (Ptr.tree 0) 0 0 8193 [] dmC8 tmC8 := by
  have hd : ∀ i, vdTouchedD 8193 8193 0 8193 8193 i = true →
      agreeAtP dmSeven zeroMem dmC8 tmC8 ((Ptr.data 0).add i) := by
    intro i hi
    have hred : vdTouchedD 8193 8193 0 8193 8193 i =
        (decide ((0:Nat) ≤ i) && decide (i < 16384)) := rfl
    rw [hred] at hi
    have h1 : i < 16384 := by
      simp only [Bool.and_eq_true, decide_eq_true_eq] at hi
      exact hi.2
    show dmSeven (0 + i) = dmC8 (0 + i)
    unfold dmSeven dmC8
    rw [if_pos (show 0 + i < 16384 by omega)]
  have ht : ∀ i, vdTouchedT 8193 8193 0 0 8193 8193 i = true →
      agreeAtP dmSeven zeroMem dmC8 tmC8 ((Ptr.tree 0).add i) := by
    intro i hi
    have hred : vdTouchedT 8193 8193 0 0 8193 8193 i =
        ((decide ((0:Nat) ≤ i) && decide (i < 64)) || false) := rfl
    rw [hred] at hi
    have h1 : i < 64 := by
      simp only [Bool.or_false, Bool.and_eq_true, decide_eq_true_eq] at hi
      exact hi.2
    show zeroMem (0 + i) = tmC8 (0 + i)
    unfold zeroMem tmC8
    rw [if_pos (show 0 + i < 64 by omega)]
  exact ⟨hd, ht, c8_outside_region_tolerance hashProbe (Ptr.data 0) (Ptr.tree 0)
    8193 0 0 8193 [] dmSeven zeroMem dmC8 tmC8 hd ht⟩

end Merkle
